import Mathlib

/-!
Verification development for the ncbi-oauth library.

The definitions below are a shallow embedding of the C++ sources:
  src/ncbi-json/json.cpp        (JSON parser and value model)
  src/inc/ncbi/json.hpp         (JSON declarations, JSONObject member map)
  src/ncbi-jwt/jwa-factory.cpp  (JWA algorithm registry)
  src/ncbi-jwt/jwk-parse.cpp    (JWK parsing and PEM import)

Texts are modelled as `List Char`, one `Char` per byte (all byte values
are below 256, so every byte is representable).  Positions are `Nat`.
C++ `std::string::operator[]` at the position one past the end returns
the NUL character, which `getC` reproduces via a default value.
Exceptions are modelled with `Except`; each error constructor is named
after the exception class thrown at the corresponding source line.
Recursive parsers take an explicit fuel argument; `outOfFuel` marks
exhaustion and the top-level wrappers supply fuel that is ample for the
input length.
-/

namespace ncbi

/-- C locale isspace: space, tab, newline, vertical tab, form feed, carriage return. -/
def isSpaceC (c : Char) : Bool :=
  c.toNat == 32 || (decide (9 ≤ c.toNat) && decide (c.toNat ≤ 13))

/-- C locale isdigit. -/
def isDigitC (c : Char) : Bool :=
  decide (48 ≤ c.toNat) && decide (c.toNat ≤ 57)

/-- C locale isalnum. -/
def isAlnumC (c : Char) : Bool :=
  isDigitC c || (decide (65 ≤ c.toNat) && decide (c.toNat ≤ 90))
    || (decide (97 ≤ c.toNat) && decide (c.toNat ≤ 122))

/-- C locale isxdigit. -/
def isHexDigitC (c : Char) : Bool :=
  isDigitC c || (decide (65 ≤ c.toNat) && decide (c.toNat ≤ 70))
    || (decide (97 ≤ c.toNat) && decide (c.toNat ≤ 102))

/-- Byte of a text at a position; one past the end yields NUL as in C++. -/
def getC (json : List Char) (pos : Nat) : Char :=
  json.getD pos (Char.ofNat 0)

/-- View a Lean string literal as a byte text. -/
def chars (s : String) : List Char := s.data

/-- substr: the bytes of `json` from `a` (inclusive) to `b` (exclusive). -/
def sub (json : List Char) (a b : Nat) : List Char :=
  (json.drop a).take (b - a)

/-- Helper of `skip_whitespace`, walking the rest of the text. -/
def skipWsAux : List Char → Nat → Option Nat
  | [], _ => none
  | c :: rest, pos => if isSpaceC c then skipWsAux rest (pos + 1) else some pos

/-- json.cpp skip_whitespace: position of the first non-whitespace byte at or
after `pos`, or `none` (the C++ code sets the position to npos and returns false). -/
def skip_whitespace (json : List Char) (pos : Nat) : Option Nat :=
  skipWsAux (json.drop pos) pos

/-- Helper of `skipDigits`, walking the rest of the text. -/
def skipDigitsAux : List Char → Nat → Nat
  | [], pos => pos
  | c :: rest, pos => if isDigitC c then skipDigitsAux rest (pos + 1) else pos

/-- First position at or after `pos` holding a non-digit byte
(the end of the text counts: C++ reads NUL there). -/
def skipDigits (json : List Char) (pos : Nat) : Nat :=
  skipDigitsAux (json.drop pos) pos

/-- Helper of `findFirstOfQB`, walking the rest of the text. -/
def findQBAux : List Char → Nat → Option Nat
  | [], _ => none
  | c :: rest, pos =>
    if c = '\\' || c = '"' then some pos else findQBAux rest (pos + 1)

/-- json.find_first_of with the two-byte set backslash and double quote,
as used by JSON::parseString. -/
def findFirstOfQB (json : List Char) (pos : Nat) : Option Nat :=
  findQBAux (json.drop pos) pos

/-- JSON::Limits (json.hpp), with the defaults of the Limits constructor (json.cpp). -/
structure Limits where
  json_string_size : Nat := 4 * 1024 * 1024
  recursion_depth : Nat := 32
  numeral_length : Nat := 256
  string_size : Nat := 64 * 1024
  array_elem_count : Nat := 4 * 1024
  object_mbr_count : Nat := 256
deriving Repr, DecidableEq

/-- The process-wide JSON::default_limits object. -/
def default_limits : Limits := {}

/-- Exceptions thrown by the JSON layer.  Each constructor is the exception
class used at the corresponding throw site in json.cpp; messages keep the
fixed text of the source (offsets and sizes interpolated by the C++ code
are omitted).  `outOfFuel` is an artifact of the fuel-based embedding and
corresponds to no source behaviour. -/
inductive JSONErr where
  | malformedJSON (msg : String)
  | limitViolation (msg : String)
  | jsonException (msg : String)
  | outOfFuel
deriving Repr, DecidableEq

/-- JSON values (json.hpp, json-priv.hpp): the wrapper variants null, bool,
integer, number (textual), string, plus arrays and objects.  Object members
carry the final flag of json.hpp line 281
(std::map<std::string, std::pair<bool, JSONValue*>>); the list is kept in
the ascending key order that std::map maintains. -/
inductive JSONValue where
  | null
  | boolean (b : Bool)
  | integer (n : Int)
  | number (text : List Char)
  | strval (s : List Char)
  | array (elems : List JSONValue)
  | object (members : List (List Char × Bool × JSONValue))

instance : Inhabited JSONValue := ⟨.null⟩

/-- Strict byte-wise lexicographic comparison of texts, the order
std::less on std::string gives the member map of a JSONObject. -/
def listCharLt : List Char → List Char → Bool
  | [], [] => false
  | [], _ :: _ => true
  | _ :: _, [] => false
  | a :: as, b :: bs =>
    if a.toNat < b.toNat then true
    else if b.toNat < a.toNat then false
    else listCharLt as bs

/-- Ordered-map insertion into the member list of a JSONObject.
Modelled from the spec: the body of JSONObject::addValue is not under src/;
json.hpp line 281 declares the members as a std::map keyed by the member
name, so insertion keeps ascending key order, and a key that is already
present has its value replaced (spec section 3: a non-final key may be
overwritten). -/
def mapInsert (k : List Char) (fin : Bool) (v : JSONValue) :
    List (List Char × Bool × JSONValue) → List (List Char × Bool × JSONValue)
  | [] => [(k, fin, v)]
  | (k2, f2, v2) :: rest =>
    if listCharLt k k2 then (k, fin, v) :: (k2, f2, v2) :: rest
    else if k = k2 then (k, fin, v) :: rest
    else (k2, f2, v2) :: mapInsert k fin v rest

/-- JSONObject::getNames: the member names in the order the map holds them. -/
def getNames (members : List (List Char × Bool × JSONValue)) : List (List Char) :=
  members.map (fun m => m.1)

/-- Membership test on the member list (JSONObject::exists). -/
def objExists (members : List (List Char × Bool × JSONValue)) (k : List Char) : Bool :=
  members.any (fun m => m.1 == k)

/-- Lookup on the member list (JSONObject::getValue, successful case). -/
def objLookup (members : List (List Char × Bool × JSONValue)) (k : List Char) :
    Option (Bool × JSONValue) :=
  match members with
  | [] => none
  | (k2, f2, v2) :: rest => if k2 = k then some (f2, v2) else objLookup rest k

/-- Value of a decimal digit string. -/
def decDigitsVal (ds : List Char) : Nat :=
  ds.foldl (fun a c => a * 10 + (c.toNat - 48)) 0

/-- Value of one hexadecimal digit byte. -/
def hexDigitVal (c : Char) : Nat :=
  if isDigitC c then c.toNat - 48
  else if decide (65 ≤ c.toNat) && decide (c.toNat ≤ 70) then c.toNat - 55
  else c.toNat - 87

/-- Value of a hexadecimal digit string. -/
def hexDigitsVal (ds : List Char) : Nat :=
  ds.foldl (fun a c => a * 16 + hexDigitVal c) 0

/-- std::stoll on a byte text: skip C whitespace, optional sign, then the
longest run of decimal digits.  Returns the value and the number of bytes
consumed, or `none` for std::out_of_range (value outside the signed 64-bit
range).  The std::invalid_argument case (no digits at all) also yields
`none`; JSON::parseNumber never reaches it because it only hands over texts
that begin with an optional minus sign followed by a digit. -/
def stollWithLen (cs : List Char) : Option (Int × Nat) :=
  let wsn := (cs.takeWhile isSpaceC).length
  let r1 := cs.dropWhile isSpaceC
  let signLen : Nat := match r1 with
    | c :: _ => if c = '-' || c = '+' then 1 else 0
    | [] => 0
  let neg : Bool := match r1 with
    | c :: _ => c = '-'
    | [] => false
  let ds := (r1.drop signLen).takeWhile isDigitC
  if ds = [] then none
  else
    let v : Int := if neg then -(decDigitsVal ds : Int) else (decDigitsVal ds : Int)
    if decide (-(2 ^ 63 : Int) ≤ v) && decide (v ≤ 2 ^ 63 - 1) then
      some (v, wsn + signLen + ds.length)
    else none

/-- Number of bytes std::stold consumes from a byte text: skip C whitespace,
optional sign, a decimal mantissa (digits, optionally a point with further
digits; a point alone needs digits on at least one side), and an exponent
part that counts only when at least one exponent digit follows.
The numeric value and the floating-point range failure of std::stold are
not modelled (floating point); JSON::parseNumber uses only the consumed
length.  Hexadecimal floats and inf and nan forms are not modelled:
JSON::parseNumber only hands over texts matching its own scanner, which
never produces them. -/
def stoldConsumed (cs : List Char) : Nat :=
  let wsn := (cs.takeWhile isSpaceC).length
  let r1 := cs.dropWhile isSpaceC
  let signLen : Nat := match r1 with
    | c :: _ => if c = '-' || c = '+' then 1 else 0
    | [] => 0
  let r2 := r1.drop signLen
  let ds := r2.takeWhile isDigitC
  let r3 := r2.drop ds.length
  let fr : Nat := match r3 with
    | c :: rest => if c = '.' then 1 + (rest.takeWhile isDigitC).length else 0
    | [] => 0
  if ds.length = 0 ∧ fr ≤ 1 then 0
  else
    let r4 := r3.drop fr
    let expLen : Nat := match r4 with
      | c :: rest =>
        if c = 'e' || c = 'E' then
          let sl : Nat := match rest with
            | d :: _ => if d = '+' || d = '-' then 1 else 0
            | [] => 0
          let es := (rest.drop sl).takeWhile isDigitC
          if es = [] then 0 else 1 + sl + es.length
        else 0
      | [] => 0
    wsn + signLen + ds.length + fr + expLen

/-- The exponent-part scan of JSON::parseNumber (the shared body of the
switch cases for the point and for E): enter at the position of the E byte,
step over it, step over one optional sign, then run over digits; the float
flag is raised when at least one digit was seen (or was already raised by
the fraction scan, passed in as `isf`). -/
def scanExpPart (json : List Char) (pos : Nat) (isf : Bool) : Nat × Bool :=
  let p1 := pos + 1
  let p2 := if getC json p1 = '+' || getC json p1 = '-' then p1 + 1 else p1
  let q := skipDigits json p2
  (q, isf || decide (p2 < q))

/-- The fraction and exponent scan of JSON::parseNumber, entered just after
the integer part with `pos` at its first non-digit byte.  Returns the end
position of the numeral text and the float flag. -/
def scanFracExp (json : List Char) (pos : Nat) : Nat × Bool :=
  let c := getC json pos
  if c = '.' then
    let q := skipDigits json (pos + 1)
    if q = pos + 1 then (q, false)
    else if getC json q = 'e' || getC json q = 'E' then scanExpPart json q true
    else (q, true)
  else if c = 'e' || c = 'E' then scanExpPart json pos false
  else (pos, false)

/-- Bit length of a byte value (the position of its highest one bit):
what the source computes as 32 minus the leading-zero count of
__builtin_clz restricted to byte values. -/
def bitSize8 (n : Nat) : Nat :=
  if 128 ≤ n then 8 else if 64 ≤ n then 7 else if 32 ≤ n then 6
  else if 16 ≤ n then 5 else if 8 ≤ n then 4 else if 4 ≤ n then 3
  else if 2 ≤ n then 2 else if 1 ≤ n then 1 else 0

/-- Fuelled walker of test_wellformed_utf8 (json.cpp lines 98 to 188).
A byte whose two top bits are not both set starts no multi-byte character:
for byte zero the complement trick of the source yields a character length
below two and the scan throws; bytes 1 to 127 are ASCII and are stepped
over; byte 255 has no zero bit and is rejected outright.  A start byte
with n leading one-bits (2 to 6) demands that many total bytes, each
follower matching the bit pattern 10xxxxxx. -/
def utf8wfF : Nat → List Char → Bool
  | 0, _ => false
  | _ + 1, [] => true
  | fuel + 1, c :: rest =>
    let b := c.toNat
    if 0 < b ∧ b ≤ 127 then utf8wfF fuel rest
    else
      let leading := 255 - b
      if leading = 0 then false
      else
        let charLen := 8 - bitSize8 leading
        if charLen < 2 ∨ 6 < charLen then false
        else if rest.length + 1 < charLen then false
        else if (rest.take (charLen - 1)).all
            (fun d => decide (128 ≤ d.toNat) && decide (d.toNat ≤ 191)) then
          utf8wfF fuel (rest.drop (charLen - 1))
        else false

/-- test_wellformed_utf8 (json.cpp lines 98 to 188): true when the scan
returns, false when it throws JSONException with message malformed UTF-8
(every throw in the function carries that message).  The fuel is ample:
every step of the walker consumes at least one byte. -/
def test_wellformed_utf8 (s : List Char) : Bool :=
  utf8wfF (s.length + 1) s

/-- std::stoi with base 16 on a byte text (strtol semantics): skip C
whitespace, optional sign, an optional 0x or 0X prefix when a hexadecimal
digit follows it, then the longest run of hexadecimal digits.  Returns the
signed value and the number of bytes consumed; `none` models both
std::invalid_argument (no digits) and std::out_of_range (value outside the
signed 32-bit int range). -/
def stoi16 (cs : List Char) : Option (Int × Nat) :=
  let wsn := (cs.takeWhile isSpaceC).length
  let r1 := cs.dropWhile isSpaceC
  let signLen : Nat := match r1 with
    | c :: _ => if c = '-' || c = '+' then 1 else 0
    | [] => 0
  let neg : Bool := match r1 with
    | c :: _ => c = '-'
    | [] => false
  let r2 := r1.drop signLen
  let pre : Nat := match r2 with
    | c0 :: c1 :: c2 :: _ =>
      if c0 = '0' ∧ (c1 = 'x' ∨ c1 = 'X') ∧ isHexDigitC c2 then 2 else 0
    | _ => 0
  let ds := (r2.drop pre).takeWhile isHexDigitC
  if ds = [] then none
  else
    let v : Int := if neg then -(hexDigitsVal ds : Int) else (hexDigitsVal ds : Int)
    if decide (-(2 ^ 31 : Int) ≤ v) && decide (v ≤ 2 ^ 31 - 1) then
      some (v, wsn + signLen + pre + ds.length)
    else none

/-- UTF-8 encoding of a code point, as std::codecvt_utf8 for char32_t
performs it: any value up to 0x10FFFF (the default Maxcode) is encoded by
bit-shifting, values above fail.  The library encoder does not reject
surrogate values. -/
def utf8EncodeCodept (v : Nat) : Option (List Char) :=
  if v < 0x80 then some [Char.ofNat v]
  else if v < 0x800 then
    some [Char.ofNat (0xC0 + v / 64), Char.ofNat (0x80 + v % 64)]
  else if v < 0x10000 then
    some [Char.ofNat (0xE0 + v / 4096), Char.ofNat (0x80 + v / 64 % 64),
          Char.ofNat (0x80 + v % 64)]
  else if v ≤ 0x10FFFF then
    some [Char.ofNat (0xF0 + v / 262144), Char.ofNat (0x80 + v / 4096 % 64),
          Char.ofNat (0x80 + v / 64 % 64), Char.ofNat (0x80 + v % 64)]
  else none

/-- hex_to_utf8 (json.cpp lines 76 to 96): run std::stoi with base 16 over
the (up to four byte) text after the backslash-u escape; reject unless
exactly four bytes were consumed; convert the resulting int through
unsigned int to a code point and emit its UTF-8 bytes.  All failures,
including the conversion failure caught by the catch-all, throw
JSONException with the same message. -/
def hex_to_utf8 (text : List Char) : Except JSONErr (List Char) :=
  match stoi16 text with
  | none => .error (.jsonException ("Invalid \\u escape sequence"))
  | some vi =>
    if vi.2 ≠ 4 then .error (.jsonException ("Invalid \\u escape sequence"))
    else
      match utf8EncodeCodept ((vi.1 % (2 ^ 32 : Int)).toNat) with
      | some bytes => .ok bytes
      | none => .error (.jsonException ("Invalid \\u escape sequence"))

namespace JSON

/-- JSON::makeString (json.cpp lines 310 to 323): the size gate against the
process-wide default limits, then the UTF-8 well-formedness gate, then the
wrapped string value. -/
def makeString (str : List Char) : Except JSONErr JSONValue :=
  if str.length > default_limits.string_size then
    .error (.jsonException ("string size exceeds allowed limit"))
  else if ¬ test_wellformed_utf8 str then
    .error (.jsonException ("malformed UTF-8"))
  else .ok (.strval str)

/-- The escape-processing loop of JSON::parseString (json.cpp lines 531 to
596).  `pos` is the read position, `esc` the position of the next backslash
or double quote (already located), `str` the bytes collected so far.  Fuel
is ample at one unit per input byte: every iteration moves the read
position forward by at least two. -/
def parseStringLoopF : Nat → Limits → List Char → Nat → Nat → List Char →
    Except JSONErr (List Char × Nat)
  | 0, _, _, _, _, _ => .error .outOfFuel
  | fuel + 1, lim, json, pos, esc, str =>
    if str.length + (esc - pos) > lim.string_size then
      .error (.jsonException ("string size exceeds allowed limit"))
    else
      let str := str ++ sub json pos esc
      if getC json esc ≠ '\\' then .ok (str, esc)
      else
        let pos := esc + 1
        let c := getC json pos
        let step : Except JSONErr (List Char × Nat) :=
          if c = '"' then .ok (str ++ ['"'], pos)
          else if c = '\\' then .ok (str ++ ['\\'], pos)
          else if c = '/' then .ok (str ++ ['/'], pos)
          else if c = 'b' then .ok (str ++ [Char.ofNat 8], pos)
          else if c = 'f' then .ok (str ++ [Char.ofNat 12], pos)
          else if c = 'n' then .ok (str ++ [Char.ofNat 10], pos)
          else if c = 'r' then .ok (str ++ [Char.ofNat 13], pos)
          else if c = 't' then .ok (str ++ [Char.ofNat 9], pos)
          else if c = 'u' then
            match hex_to_utf8 ((json.drop (pos + 1)).take 4) with
            | .error e => .error e
            | .ok utf8 => .ok (str ++ utf8, pos + 4)
          else .error (.jsonException ("Invalid escape character"))
        match step with
        | .error e => .error e
        | .ok sp =>
          let pos := sp.2 + 1
          match findFirstOfQB json pos with
          | none => .error (.jsonException ("Invalid end of string format"))
          | some esc2 => parseStringLoopF fuel lim json pos esc2 sp.1

/-- JSON::parseString (json.cpp lines 520 to 615): step over the opening
quote, locate the first backslash or quote, run the escape loop, step over
the closing quote, apply the string size limit and the UTF-8 gate. -/
def parseString (lim : Limits) (json : List Char) (pos : Nat) :
    Except JSONErr (JSONValue × Nat) :=
  let pos := pos + 1
  match findFirstOfQB json pos with
  | none => .error (.jsonException ("Invalid ending of string format"))
  | some esc =>
    match parseStringLoopF (json.length + 1) lim json pos esc [] with
    | .error e => .error e
    | .ok sp =>
      let pos := sp.2 + 1
      if sp.1.length > lim.string_size then
        .error (.jsonException ("string size exceeds allowed limit"))
      else if ¬ test_wellformed_utf8 sp.1 then
        .error (.jsonException ("malformed UTF-8"))
      else .ok (.strval sp.1, pos)

/-- JSON::parseNumber (json.cpp lines 420 to 518). -/
def parseNumber (lim : Limits) (json : List Char) (pos : Nat) :
    Except JSONErr (JSONValue × Nat) :=
  let start := pos
  let pos1 := if getC json pos = '-' then pos + 1 else pos
  if ¬ isDigitC (getC json pos1) then .error (.jsonException ("Expected: digit"))
  else
    let pos2 := if getC json pos1 = '0' then pos1 + 1 else skipDigits json (pos1 + 1)
    let fe := scanFracExp json pos2
    if fe.1 - start > lim.numeral_length then
      .error (.jsonException ("numeral length exceeds allowed limit"))
    else
      let num_str := sub json start fe.1
      match (if fe.2 then none else stollWithLen num_str) with
      | some nl => .ok (.integer nl.1, start + nl.2)
      | none =>
        let num_len := stoldConsumed num_str
        if num_len > lim.numeral_length then
          .error (.jsonException ("numeral size exceeds allowed limit"))
        else .ok (.number (num_str.take num_len), start + num_len)

/-- JSON::parseNull (json.cpp lines 367 to 380). -/
def parseNull (json : List Char) (pos : Nat) : Except JSONErr (JSONValue × Nat) :=
  if (chars ("null")).isPrefixOf (json.drop pos) then
    let pos := pos + 4
    if decide (pos < json.length) && isAlnumC (getC json pos) then
      .error (.jsonException ("Expected keyword: null"))
    else .ok (.null, pos)
  else .error (.jsonException ("Expected keyword: null"))

/-- JSON::parseBoolean (json.cpp lines 382 to 418). -/
def parseBoolean (json : List Char) (pos : Nat) : Except JSONErr (JSONValue × Nat) :=
  let start := pos
  if (chars ("false")).isPrefixOf (json.drop start) then
    let pos := pos + 5
    if decide (pos < json.length) && isAlnumC (getC json pos) then
      .error (.jsonException ("Expected keyword: false"))
    else .ok (.boolean false, pos)
  else if (chars ("true")).isPrefixOf (json.drop start) then
    let pos := pos + 4
    if decide (pos < json.length) && isAlnumC (getC json pos) then
      .error (.jsonException ("Expected keyword: true"))
    else .ok (.boolean true, pos)
  else if getC json start = 'f' then .error (.jsonException ("Expected keyword: false"))
  else .error (.jsonException ("Expected keyword: true"))

mutual

/-- The value dispatch JSON::parse (json.cpp lines 335 to 365).  Returns
`none` in place of the null JSONValueRef the source hands back when only
whitespace remains. -/
def parseValueF (fuel : Nat) (lim : Limits) (json : List Char) (pos depth : Nat) :
    Except JSONErr (Option (JSONValue × Nat)) :=
  match fuel with
  | 0 => .error .outOfFuel
  | fuel + 1 =>
    match skip_whitespace json pos with
    | none => .ok none
    | some pos =>
      let c := getC json pos
      if c = '\x7b' then
        match parseObjectF fuel lim json pos depth with
        | .error e => .error e
        | .ok mp => .ok (some (.object mp.1, mp.2))
      else if c = '[' then
        match parseArrayF fuel lim json pos depth with
        | .error e => .error e
        | .ok vp => .ok (some vp)
      else if c = '"' then
        match parseString lim json pos with
        | .error e => .error e
        | .ok vp => .ok (some vp)
      else if c = 'f' ∨ c = 't' then
        match parseBoolean json pos with
        | .error e => .error e
        | .ok vp => .ok (some vp)
      else if c = '-' then
        match parseNumber lim json pos with
        | .error e => .error e
        | .ok vp => .ok (some vp)
      else if c = 'n' then
        match parseNull json pos with
        | .error e => .error e
        | .ok vp => .ok (some vp)
      else if isDigitC c then
        match parseNumber lim json pos with
        | .error e => .error e
        | .ok vp => .ok (some vp)
      else .error (.jsonException ("Invalid JSON format"))
termination_by structural fuel

/-- JSON::parseArray (json.cpp lines 617 to 661).  No depth test appears in
the source of this function; the depth is forwarded to the element parses
unchanged. -/
def parseArrayF (fuel : Nat) (lim : Limits) (json : List Char) (pos depth : Nat) :
    Except JSONErr (JSONValue × Nat) :=
  match fuel with
  | 0 => .error .outOfFuel
  | fuel + 1 => parseArrayLoopF fuel lim json pos depth []
termination_by structural fuel

/-- The element loop of JSON::parseArray.  `pos` is at the opening bracket
or at the separating comma; the element count is tested against the
process-wide default limits, as in the source (json.cpp line 641). -/
def parseArrayLoopF (fuel : Nat) (lim : Limits) (json : List Char)
    (pos depth : Nat) (acc : List JSONValue) : Except JSONErr (JSONValue × Nat) :=
  match fuel with
  | 0 => .error .outOfFuel
  | fuel + 1 =>
    match skip_whitespace json (pos + 1) with
    | none => .error (.jsonException ("Expected: close bracket"))
    | some pos =>
      if getC json pos = ']' then .ok (.array acc, pos + 1)
      else
        match parseValueF fuel lim json pos depth with
        | .error e => .error e
        | .ok none => .error (.jsonException ("Failed to create JSON object"))
        | .ok (some vp) =>
          let acc := acc ++ [vp.1]
          if acc.length > default_limits.array_elem_count then
            .error (.jsonException ("Array element count exceeds limit"))
          else
            match skip_whitespace json vp.2 with
            | none => .error (.jsonException ("Excpected: close bracket"))
            | some pos =>
              if getC json pos = ',' then parseArrayLoopF fuel lim json pos depth acc
              else if getC json pos = ']' then .ok (.array acc, pos + 1)
              else .error (.jsonException ("Excpected: close bracket"))
termination_by structural fuel

/-- JSON::parseObject (json.cpp lines 663 to 723): test_depth is applied on
entry (increment, then compare against the recursion limit), then the
member loop runs at the incremented depth. -/
def parseObjectF (fuel : Nat) (lim : Limits) (json : List Char) (pos depth : Nat) :
    Except JSONErr (List (List Char × Bool × JSONValue) × Nat) :=
  match fuel with
  | 0 => .error .outOfFuel
  | fuel + 1 =>
    if depth + 1 > lim.recursion_depth then
      .error (.jsonException ("parsing recursion exceeds maximum depth"))
    else parseObjectLoopF fuel lim json pos (depth + 1) []
termination_by structural fuel

/-- The member loop of JSON::parseObject.  `pos` is at the opening brace or
at the separating comma; the member count is tested against the
process-wide default limits, with the message of the source (json.cpp
line 705, which speaks of an array element count). -/
def parseObjectLoopF (fuel : Nat) (lim : Limits) (json : List Char)
    (pos depth : Nat) (acc : List (List Char × Bool × JSONValue)) :
    Except JSONErr (List (List Char × Bool × JSONValue) × Nat) :=
  match fuel with
  | 0 => .error .outOfFuel
  | fuel + 1 =>
    match skip_whitespace json (pos + 1) with
    | none => .error (.jsonException ("Expected: close brace"))
    | some pos =>
      if getC json pos = '\x7d' then .ok (acc, pos + 1)
      else if getC json pos ≠ '"' then .error (.jsonException ("Expected: name"))
      else
        match parseString lim json pos with
        | .error e => .error e
        | .ok np =>
          let key : List Char := match np.1 with
            | .strval s => s
            | _ => []
          match skip_whitespace json np.2 with
          | none => .error (.jsonException ("Expected: colon"))
          | some pos =>
            if getC json pos ≠ ':' then .error (.jsonException ("Expected: colon"))
            else
              match parseValueF fuel lim json (pos + 1) depth with
              | .error e => .error e
              | .ok none => .error (.jsonException ("Failed to create JSON object"))
              | .ok (some vp) =>
                let acc := mapInsert key false vp.1 acc
                if acc.length > default_limits.object_mbr_count then
                  .error (.jsonException ("Array element count exceeds limit"))
                else
                  match skip_whitespace json vp.2 with
                  | none => .error (.jsonException ("Expected: close brace"))
                  | some pos =>
                    if getC json pos = ',' then
                      parseObjectLoopF fuel lim json pos depth acc
                    else if getC json pos = '\x7d' then .ok (acc, pos + 1)
                    else .error (.jsonException ("Expected: close brace"))
termination_by structural fuel

end

/-- Fuel handed to the recursive parsers by the top-level entry points.
Every unit of call depth and every loop iteration steps past at least one
input byte, at a cost of at most four fuel units per byte. -/
def topFuel (json : List Char) : Nat := 4 * json.length + 8

/-- The stage of JSON::parse (json.cpp lines 202 to 240) before the
trailing-bytes check: the emptiness and total-size gates, leading
whitespace, and the brace or bracket dispatch. -/
def parseTop (lim : Limits) (json : List Char) : Except JSONErr (JSONValue × Nat) :=
  if json = [] then .error (.malformedJSON ("Empty JSON source"))
  else if json.length > lim.json_string_size then
    .error (.limitViolation ("JSON source size exceeds allowed size limit"))
  else
    match skip_whitespace json 0 with
    | none => .error (.malformedJSON ("Expected: open brace or bracket"))
    | some pos =>
      if getC json pos = '\x7b' then
        match parseObjectF (topFuel json) lim json pos 0 with
        | .error e => .error e
        | .ok mp => .ok (.object mp.1, mp.2)
      else if getC json pos = '[' then parseArrayF (topFuel json) lim json pos 0
      else .error (.malformedJSON ("Expected: open brace or bracket"))

/-- JSON::parse with limits (json.cpp lines 202 to 240): the dispatch stage,
then the check that the value ended exactly at the end of the input
(json.cpp line 236 compares the position against the source size with no
whitespace skip in between). -/
def parse (lim : Limits) (json : List Char) : Except JSONErr JSONValue :=
  match parseTop lim json with
  | .error e => .error e
  | .ok vp =>
    if vp.2 < json.length then .error (.malformedJSON ("Trailing byes in JSON text"))
    else .ok vp.1

/-- JSON::parseObject with limits (json.cpp lines 247 to 282): like `parse`
but the first byte must open an object (the wrong-byte throw at line 275 is
a plain JSONException in the source). -/
def parseObject (lim : Limits) (json : List Char) :
    Except JSONErr (List (List Char × Bool × JSONValue)) :=
  if json = [] then .error (.malformedJSON ("Empty JSON source"))
  else if json.length > lim.json_string_size then
    .error (.limitViolation ("JSON source size exceeds allowed size limit"))
  else
    match skip_whitespace json 0 with
    | none => .error (.malformedJSON ("Expected: open brace"))
    | some pos =>
      if getC json pos = '\x7b' then
        match parseObjectF (topFuel json) lim json pos 0 with
        | .error e => .error e
        | .ok mp =>
          if mp.2 < json.length then
            .error (.malformedJSON ("Trailing byes in JSON text"))
          else .ok mp.1
      else .error (.jsonException ("Expected: open brace"))

end JSON

/-- Exceptions of the JWT layer (jwt.hpp declares the single class
JWTException).  The constructor `algorithmUnavailable` stands for the
JWTException thrown by JWAFactory::makeSigner and makeVerifier when the
algorithm has no registered factory, the error the spec taxonomy in
section 7 names AlgorithmUnavailable. -/
inductive JWTErr where
  | jwtException (msg : String)
  | algorithmUnavailable (msg : String)
deriving Repr, DecidableEq

/-- The acceptance set built by JWAFactory::Maps::Maps (jwa-factory.cpp
lines 260 to 278): the only algorithm names a registration may record.
The name none appears in the constructor only as a commented-out line. -/
def sign_accept : List String :=
  ["HS256", "HS384", "HS512", "RS256", "RS384", "RS512",
   "ES256", "ES384", "ES512", "PS256", "PS384", "PS512"]

/-- The two factory maps of JWAFactory::Maps.  The factory types are kept
abstract (the C++ stores pointers to JWASignerFact and JWAVerifierFact
objects); the acceptance set is the fixed one the Maps constructor builds
and is not a field because no source code ever changes it. -/
structure JWAMaps (σ ν : Type) where
  signer_facts : List (String × σ)
  verifier_facts : List (String × ν)
deriving Repr, DecidableEq

/-- Lookup in a factory map (std::map::find). -/
def factFind {α : Type} : List (String × α) → String → Option α
  | [], _ => none
  | (k, v) :: rest, alg => if k = alg then some v else factFind rest alg

/-- Ordered insertion used when std::map::emplace adds a missing key. -/
def factEmplace {α : Type} (k : String) (v : α) :
    List (String × α) → List (String × α)
  | [] => [(k, v)]
  | (k2, v2) :: rest =>
    if listCharLt k.data k2.data then (k, v) :: (k2, v2) :: rest
    else (k2, v2) :: factEmplace k v rest

/-- In-place overwrite of the mapped value at an existing key
(the source deletes the old factory and assigns through the iterator). -/
def factReplace {α : Type} (k : String) (v : α) :
    List (String × α) → List (String × α)
  | [] => []
  | (k2, v2) :: rest =>
    if k2 = k then (k, v) :: rest else (k2, v2) :: factReplace k v rest

/-- JWAFactory::registerSignerFact (jwa-factory.cpp lines 180 to 206):
nothing is recorded unless the algorithm name is in the acceptance set;
a missing name is emplaced, a present name bound to a different factory
has its factory replaced (binding the same factory again changes nothing
either way).  The release-build behaviour is modelled: the asserts of the
source vanish under NDEBUG. -/
def registerSignerFact {σ ν : Type} [DecidableEq σ] (m : JWAMaps σ ν)
    (alg : String) (fact : σ) : JWAMaps σ ν :=
  if alg ∈ sign_accept then
    match factFind m.signer_facts alg with
    | none => { m with signer_facts := factEmplace alg fact m.signer_facts }
    | some old =>
      if old = fact then m
      else { m with signer_facts := factReplace alg fact m.signer_facts }
  else m

/-- JWAFactory::registerVerifierFact (jwa-factory.cpp lines 208 to 233),
the same policy over the verifier map (the acceptance test also reads
sign_accept in the source). -/
def registerVerifierFact {σ ν : Type} [DecidableEq ν] (m : JWAMaps σ ν)
    (alg : String) (fact : ν) : JWAMaps σ ν :=
  if alg ∈ sign_accept then
    match factFind m.verifier_facts alg with
    | none => { m with verifier_facts := factEmplace alg fact m.verifier_facts }
    | some old =>
      if old = fact then m
      else { m with verifier_facts := factReplace alg fact m.verifier_facts }
  else m

/-- JWAFactory::makeSigner (jwa-factory.cpp lines 132 to 154): look the
algorithm up in the signer map; a missing entry throws the
algorithm-unavailable JWTException; otherwise the factory found is invoked
on (alg, name, key).  The virtual JWASignerFact::make call lives in the
algorithm units outside src/, so the result returns the factory together
with its arguments. -/
def makeSigner {σ ν : Type} (m : JWAMaps σ ν) (alg nam key : String) :
    Except JWTErr (σ × String × String × String) :=
  match factFind m.signer_facts alg with
  | none =>
    .error (.algorithmUnavailable ("signing algorithm not registered: " ++ alg))
  | some fact => .ok (fact, alg, nam, key)

/-- JWAFactory::makeVerifier (jwa-factory.cpp lines 156 to 178). -/
def makeVerifier {σ ν : Type} (m : JWAMaps σ ν) (alg nam key : String) :
    Except JWTErr (ν × String × String × String) :=
  match factFind m.verifier_facts alg with
  | none =>
    .error (.algorithmUnavailable ("signing algorithm not registered: " ++ alg))
  | some fact => .ok (fact, alg, nam, key)

/-- The key kinds JWK::parse can dispatch to.  The make functions of the
key classes (HMAC_JWKey, RSAPublic_JWKey, RSAPrivate_JWKey and the two
elliptic-curve classes) wrap the parsed object without further checks
(jwk-ec.cpp shows make returning the wrapper directly), so the dispatch
target identifies the outcome. -/
inductive JWKKind where
  | hmacKey
  | rsaPublic
  | rsaPrivate
  | ecPublic
  | ecPrivate
deriving Repr, DecidableEq

/-- Errors surfaced by JWK::parse: JSON parser exceptions pass through;
the missing-member throw of JSONObject::getValue (body outside src/,
modelled from the spec error taxonomy as UnknownMember) and the
JWTException of the bad-kty branch. -/
inductive JWKErr where
  | fromJSON (e : JSONErr)
  | unknownMember (name : String)
  | jwtException (msg : String)
deriving Repr, DecidableEq

/-- JSONValue conversion toString.  Modelled from the spec (section 9):
conversions are total per tag and fail with a typed error on unsupported
tags; the primitive bodies are outside src/ except the trivial string and
number cases of json-priv.hpp. -/
def valToString : JSONValue → Option (List Char)
  | .strval s => some s
  | .number t => some t
  | .boolean b => some (if b then chars ("true") else chars ("false"))
  | .integer n => some (toString n).data
  | _ => none

/-- JWK::parse (jwk-parse.cpp lines 57 to 98): parse the text as a JSON
object under the default limits, read member kty as a string, and dispatch:
oct to the HMAC key, RSA to the private or public RSA key by the presence
of member d, and the literal ES (as written at jwk-parse.cpp line 76) to
the private or public elliptic-curve key by the presence of member d; any
other kty value throws the bad-kty JWTException. -/
def JWK.parse (json_text : List Char) : Except JWKErr JWKKind :=
  match JSON.parseObject default_limits json_text with
  | .error e => .error (.fromJSON e)
  | .ok props =>
    match objLookup props (chars ("kty")) with
    | none => .error (.unknownMember ("kty"))
    | some fv =>
      match valToString fv.2 with
      | none => .error (.jwtException ("type mismatch"))
      | some kty =>
        if kty = chars ("oct") then .ok .hmacKey
        else if kty = chars ("RSA") then
          if objExists props (chars ("d")) then .ok .rsaPrivate else .ok .rsaPublic
        else if kty = chars ("ES") then
          if objExists props (chars ("d")) then .ok .ecPrivate else .ok .ecPublic
        else
          .error (.jwtException ("bad kty value for JWK: " ++ String.mk kty))

/-- Helper of `findSub`, walking the rest of the haystack. -/
def findSubAux : List Char → Nat → List Char → Option Nat
  | [], pos, needle => if needle = [] then some pos else none
  | c :: rest, pos, needle =>
    if needle.isPrefixOf (c :: rest) then some pos
    else findSubAux rest (pos + 1) needle

/-- std::string::find of a pattern from a starting position. -/
def findSub (hay : List Char) (needle : List Char) (fromPos : Nat) : Option Nat :=
  if fromPos > hay.length then none
  else findSubAux (hay.drop fromPos) fromPos needle

/-- Exits of one iteration round of the JWK::parsePEM scan: a throw of the
invalid-PEM JWTException, or arrival at one of the four supported key
banners (the subsequent mbedtls decoding and JWK construction act on the
entry text and do not touch the scan state). -/
inductive PemOutcome where
  | pemError (msg : String)
  | keyEntry (label : List Char) (key_text : List Char)
deriving Repr, DecidableEq

/-- The banner scan loop of JWK::parsePEM (jwk-parse.cpp lines 155 to 385).
`endPos` is the outer variable `end` from which the next opening banner is
sought.  The source declares a new local variable also named `end` at line
194 to hold the end of the current entry; the outer `end` is never
assigned after its initialization to zero, so both skip paths (a banner
not ending in KEY, and a KEY label other than the four supported ones)
re-enter the loop with the outer `end` unchanged, which the recursive
calls reproduce.  `none` means the fuel ran out, that is, the loop was
still running after `fuel` iterations. -/
def parsePEMLoopF (fuel : Nat) (pem : List Char) (endPos : Nat) : Option PemOutcome :=
  match fuel with
  | 0 => none
  | fuel + 1 =>
    match findSub pem (chars ("-----BEGIN ")) endPos with
    | none => some (.pemError ("invalid PEM text"))
    | some start =>
      let label_start := start + 11
      match findSub pem (chars ("-----")) label_start with
      | none => some (.pemError ("invalid PEM text"))
      | some ks0 =>
        let key_start := ks0 + 5
        match findSub pem (chars ("-----")) key_start with
        | none => some (.pemError ("invalid PEM text"))
        | some key_end =>
          match findSub pem (chars ("END ")) (key_end + 5) with
          | none => some (.pemError ("invalid PEM text"))
          | some el0 =>
            let end_label := el0 + 4
            match findSub pem (chars ("-----")) end_label with
            | none => some (.pemError ("invalid PEM text"))
            | some e0 =>
              let endLocal := e0 + 5
              if sub pem label_start key_start ≠ sub pem end_label endLocal then
                some (.pemError ("invalid PEM text"))
              else
                let type_start := key_start - 9
                if sub pem type_start key_start = chars (" KEY-----") then
                  let label := sub pem label_start type_start
                  if label = chars ("RSA PRIVATE") ∨ label = chars ("EC PRIVATE")
                      ∨ label = chars ("RSA PUBLIC") ∨ label = chars ("PUBLIC") then
                    some (.keyEntry label (sub pem start endLocal))
                  else parsePEMLoopF fuel pem endPos
                else parsePEMLoopF fuel pem endPos
termination_by structural fuel

/-- String re-escaping for serialization.  Modelled from the spec:
string_to_json is declared in json-priv.hpp but its body is not under
src/; section 4.A says strings are re-escaped on output. -/
def jsonEscape (s : List Char) : List Char :=
  s.flatMap (fun c =>
    if c = '"' then ['\\', '"'] else if c = '\\' then ['\\', '\\'] else [c])

/-- Comma-join of serialized fragments. -/
def joinComma : List (List Char) → List Char
  | [] => []
  | [x] => x
  | x :: y :: rest => x ++ ',' :: joinComma (y :: rest)

/-- Claim-side reading for C9, following the spec words: a numeral text
parses as an in-range signed 64-bit integer exactly when it is an optional
sign followed by nothing but decimal digits (at least one) and its value
fits the signed 64-bit range; the result is that value. -/
def int64OfText (cs : List Char) : Option Int :=
  let signLen : Nat := match cs with
    | c :: _ => if c = '-' || c = '+' then 1 else 0
    | [] => 0
  let neg : Bool := match cs with
    | c :: _ => c = '-'
    | [] => false
  let ds := cs.drop signLen
  if ds ≠ [] ∧ ds.all isDigitC then
    let v : Int := if neg then -(decDigitsVal ds : Int) else (decDigitsVal ds : Int)
    if -(2 ^ 63 : Int) ≤ v ∧ v ≤ 2 ^ 63 - 1 then some v else none
  else none

/-- The exponent part of the std::stold consumption, applied to what
remains after the mantissa. -/
def tailExpLen (r4 : List Char) : Nat :=
  match r4 with
  | c :: rest =>
    if c = 'e' || c = 'E' then
      let sl : Nat := match rest with
        | d :: _ => if d = '+' || d = '-' then 1 else 0
        | [] => 0
      let es := (rest.drop sl).takeWhile isDigitC
      if es = [] then 0 else 1 + sl + es.length
    else 0
  | [] => 0

/-- The fraction-and-exponent tail of the std::stold consumption
(`stoldConsumed`), applied to what remains after the sign and the leading
digit run: used to state how much of a numeral text beyond its integer
part the conversion consumes. -/
def tailFrExp (r3 : List Char) : Nat :=
  let fr : Nat := match r3 with
    | c :: rest => if c = '.' then 1 + (rest.takeWhile isDigitC).length else 0
    | [] => 0
  fr + tailExpLen (r3.drop fr)

mutual

/-- toJSON of a value.  Modelled from the spec: the toJSON bodies of the
container classes are not under src/; section 4.A says serialization
re-escapes strings, emits stored number text and literals, and walks
arrays and objects in their stored order (for objects that is the order
of the member map). -/
def toJSON : JSONValue → List Char
  | .null => chars ("null")
  | .boolean b => if b then chars ("true") else chars ("false")
  | .integer n => (toString n).data
  | .number t => t
  | .strval s => '"' :: (jsonEscape s ++ ['"'])
  | .array es => '[' :: (toJSONElems es ++ [']'])
  | .object ms => '\x7b' :: (toJSONMems ms ++ ['\x7d'])

/-- Comma-separated serialization of array elements. -/
def toJSONElems : List JSONValue → List Char
  | [] => []
  | [v] => toJSON v
  | v :: w :: rest => toJSON v ++ ',' :: toJSONElems (w :: rest)

/-- Comma-separated serialization of object members, in list order. -/
def toJSONMems : List (List Char × Bool × JSONValue) → List Char
  | [] => []
  | [m] => '"' :: (jsonEscape m.1 ++ ['"', ':'] ++ toJSON m.2.2)
  | m :: m2 :: rest =>
    ('"' :: (jsonEscape m.1 ++ ['"', ':'] ++ toJSON m.2.2)) ++
      ',' :: toJSONMems (m2 :: rest)

end

/-! ## Theorems -/

theorem factFind_emplace {α : Type} (k : String) (v : α) :
    ∀ l : List (String × α), factFind l k = none →
      factFind (factEmplace k v l) k = some v := by
  intro l
  induction l with
  | nil => intro _; simp [factEmplace, factFind]
  | cons kv rest ih =>
    intro h
    obtain ⟨k2, v2⟩ := kv
    by_cases hk : k2 = k
    · simp [factFind, hk] at h
    · simp only [factEmplace]
      by_cases hlt : listCharLt k.data k2.data
      · simp [hlt, factFind]
      · simp only [factFind, hk] at h
        simp [hlt, factFind, hk, ih h]

theorem factFind_replace {α : Type} (k : String) (v : α) :
    ∀ (l : List (String × α)) (old : α), factFind l k = some old →
      factFind (factReplace k v l) k = some v := by
  intro l
  induction l with
  | nil => intro old h; simp [factFind] at h
  | cons kv rest ih =>
    intro old h
    obtain ⟨k2, v2⟩ := kv
    by_cases hk : k2 = k
    · simp [factReplace, hk, factFind]
    · simp only [factFind, hk] at h
      simp only [factReplace, hk]
      simp only [if_neg hk, factFind, hk]
      exact ih old h

/-- C1: registerSignerFact and registerVerifierFact record the mapping from
an algorithm name to a factory only when the name is one of the twelve
whitelisted names HS256 through PS512; for any other name (none included)
both registrations leave the registry unchanged; and makeSigner and
makeVerifier fail with the algorithm-unavailable error for any name that
has no registered factory. -/
theorem jwa_registry_whitelist_policy {σ ν : Type} [DecidableEq σ] [DecidableEq ν]
    (m : JWAMaps σ ν) (a : String) (f : σ) (g : ν) (nam key : String) :
    (sign_accept = ["HS256", "HS384", "HS512", "RS256", "RS384", "RS512",
      "ES256", "ES384", "ES512", "PS256", "PS384", "PS512"])
    ∧ (a ∉ sign_accept →
        registerSignerFact m a f = m ∧ registerVerifierFact m a g = m)
    ∧ (a ∈ sign_accept →
        factFind (registerSignerFact m a f).signer_facts a = some f
        ∧ factFind (registerVerifierFact m a g).verifier_facts a = some g)
    ∧ (factFind m.signer_facts a = none →
        makeSigner m a nam key =
          .error (.algorithmUnavailable ("signing algorithm not registered: " ++ a)))
    ∧ (factFind m.verifier_facts a = none →
        makeVerifier m a nam key =
          .error (.algorithmUnavailable ("signing algorithm not registered: " ++ a))) := by
  refine ⟨rfl, ?_, ?_, ?_, ?_⟩
  · intro h
    exact ⟨by simp [registerSignerFact, h], by simp [registerVerifierFact, h]⟩
  · intro h
    constructor
    · unfold registerSignerFact
      rw [if_pos h]
      cases hf : factFind m.signer_facts a with
      | none => exact factFind_emplace a f _ hf
      | some old =>
        by_cases he : old = f
        · subst he; simpa using hf
        · simpa [he] using factFind_replace a f _ old hf
    · unfold registerVerifierFact
      rw [if_pos h]
      cases hf : factFind m.verifier_facts a with
      | none => exact factFind_emplace a g _ hf
      | some old =>
        by_cases he : old = g
        · subst he; simpa using hf
        · simpa [he] using factFind_replace a g _ old hf
  · intro h; simp [makeSigner, h]
  · intro h; simp [makeVerifier, h]

theorem jwa_registry_whitelist_policy_witness :
    registerSignerFact (⟨[], []⟩ : JWAMaps Nat Nat) ("none") 0 = ⟨[], []⟩
    ∧ makeSigner (⟨[], []⟩ : JWAMaps Nat Nat) ("none") ("n") ("k") =
        .error (.algorithmUnavailable ("signing algorithm not registered: " ++ "none"))
    ∧ factFind (registerSignerFact (⟨[], []⟩ : JWAMaps Nat Nat) ("HS256") 7).signer_facts
        ("HS256") = some 7 := by
  have h1 := jwa_registry_whitelist_policy (⟨[], []⟩ : JWAMaps Nat Nat) ("none") 0 0 ("n") ("k")
  have h2 := jwa_registry_whitelist_policy (⟨[], []⟩ : JWAMaps Nat Nat) ("HS256") 7 7 ("n") ("k")
  exact ⟨(h1.2.1 (by decide)).1, h1.2.2.2.1 rfl, (h2.2.2.1 (by decide)).1⟩

/-- C2: evaluating the code on a JWK whose kty is EC.  The dispatch of
JWK::parse (jwk-parse.cpp line 76) compares kty against the literal ES, so
the standard elliptic-curve type name EC, the very name the EC key classes
themselves store (jwk-ec.cpp writes kty = EC), falls through to the
bad-kty failure branch, while the non-standard value ES selects the
elliptic-curve keys. -/
theorem jwk_parse_rejects_kty_EC :
    JWK.parse (chars ("\x7b\"kty\":\"EC\"\x7d")) =
      .error (.jwtException ("bad kty value for JWK: EC"))
    ∧ JWK.parse (chars ("\x7b\"kty\":\"ES\"\x7d")) = .ok .ecPublic
    ∧ JWK.parse (chars ("\x7b\"kty\":\"ES\",\"d\":\"x\"\x7d")) = .ok .ecPrivate
    ∧ JWK.parse (chars ("\x7b\"kty\":\"oct\"\x7d")) = .ok .hmacKey
    ∧ JWK.parse (chars ("\x7b\"kty\":\"RSA\",\"d\":\"x\"\x7d")) = .ok .rsaPrivate
    ∧ JWK.parse (chars ("\x7b\"kty\":\"RSA\"\x7d")) = .ok .rsaPublic :=
  ⟨rfl, rfl, rfl, rfl, rfl, rfl⟩

/-- C3: a PEM text whose first entry is not one of the four supported key
banners makes the scan loop of JWK::parsePEM run forever: the loop
re-searches from the outer end position, which is never advanced (the end
of the entry is computed into a shadowing local variable at jwk-parse.cpp
line 194), so no amount of fuel makes the loop exit on such an input. -/
theorem parsePEM_skipped_entry_loops_forever :
    ∀ fuel : Nat,
      parsePEMLoopF fuel (chars ("-----BEGIN CERT-----xyz-----END CERT-----")) 0
        = none := by
  intro fuel
  induction fuel with
  | zero => rfl
  | succ f ih =>
    have hstep :
        parsePEMLoopF (f + 1) (chars ("-----BEGIN CERT-----xyz-----END CERT-----")) 0
          = parsePEMLoopF f (chars ("-----BEGIN CERT-----xyz-----END CERT-----")) 0 := rfl
    rw [hstep, ih]

/-- C4 counterexample: with the recursion limit set to one, the input of
two nested arrays parses successfully, though its container nesting is two;
JSON::parseArray performs no depth test, so the claim that array nesting
counts against the recursion limit fails. -/
theorem nested_arrays_bypass_recursion_limit :
    JSON.parse { default_limits with recursion_depth := 1 } (chars ("[[]]"))
      = .ok (.array [.array []]) := rfl

/-- C4 amended: the parser increments the depth counter and checks it
against the recursion limit before descending into an object only
(json.cpp line 666): every call of JSON::parseObject at a depth at or
beyond the limit fails at once with the depth JSONException, while
JSON::parseArray forwards the depth to its elements unchanged, so nesting
made of arrays alone is never charged against the limit. -/
theorem parseObject_depth_checked_on_entry (fuel : Nat) (lim : Limits)
    (json : List Char) (pos depth : Nat) (h : lim.recursion_depth ≤ depth) :
    JSON.parseObjectF (fuel + 1) lim json pos depth =
      .error (.jsonException ("parsing recursion exceeds maximum depth")) := by
  have hlt : depth + 1 > lim.recursion_depth := by omega
  simp [JSON.parseObjectF, hlt]

theorem parseObject_depth_checked_on_entry_witness :
    JSON.parseObjectF 1 default_limits (chars ("\x7b\x7d")) 0 32 =
      .error (.jsonException ("parsing recursion exceeds maximum depth")) :=
  parseObject_depth_checked_on_entry 0 default_limits (chars ("\x7b\x7d")) 0 32
    (by decide)

/-- C5: evaluating the code on inputs that exceed the supplied limits.
With a supplied limit of one array element, the two-element array still
parses, and with a supplied limit of one object member, the two-member
object still parses: the count checks of JSON::parseArray (json.cpp line
641) and JSON::parseObject (line 704) read the process-wide default limits
instead of the supplied configuration, so only the defaults of 4096
elements and 256 members are ever enforced. -/
theorem elem_count_limits_read_process_defaults :
    JSON.parse { default_limits with array_elem_count := 1 } (chars ("[0,0]"))
      = .ok (.array [.integer 0, .integer 0])
    ∧ JSON.parseObject { default_limits with object_mbr_count := 1 }
        (chars ("\x7b\"a\":0,\"b\":0\x7d"))
      = .ok [(chars ("a"), false, .integer 0), (chars ("b"), false, .integer 0)] :=
  ⟨rfl, rfl⟩

theorem charToNat_inj {a b : Char} (h : a.toNat = b.toNat) : a = b :=
  Char.ext (UInt32.ext h)

theorem listCharLt_total :
    ∀ a b : List Char, listCharLt a b = false → a ≠ b → listCharLt b a = true := by
  intro a
  induction a with
  | nil =>
    intro b hf hne
    cases b with
    | nil => exact absurd rfl hne
    | cons c bs => simp [listCharLt] at hf
  | cons x xs ih =>
    intro b hf hne
    cases b with
    | nil => simp [listCharLt]
    | cons y ys =>
      by_cases hxy : x.toNat < y.toNat
      · simp [listCharLt, hxy] at hf
      · by_cases hyx : y.toNat < x.toNat
        · simp [listCharLt, hyx]
        · have hxyn : x.toNat = y.toNat := by omega
          have hx : x = y := charToNat_inj hxyn
          subst hx
          simp only [listCharLt, lt_irrefl, if_false, if_neg (lt_irrefl x.toNat)] at hf ⊢
          have hys : xs ≠ ys := by
            intro hc; exact hne (by rw [hc])
          exact ih ys hf hys

theorem mapInsert_names_head (k : List Char) (fin : Bool) (v : JSONValue) :
    ∀ l : List (List Char × Bool × JSONValue),
      (getNames (mapInsert k fin v l)).head? = some k
      ∨ (getNames (mapInsert k fin v l)).head? = (getNames l).head? := by
  intro l
  cases l with
  | nil => left; rfl
  | cons m rest =>
    obtain ⟨k2, f2, v2⟩ := m
    by_cases hlt : listCharLt k k2
    · left
      simp only [mapInsert, if_pos hlt, getNames, List.map_cons, List.head?_cons]
    · by_cases heq : k = k2
      · left
        simp only [mapInsert, if_neg hlt, if_pos heq, getNames, List.map_cons,
          List.head?_cons]
      · right
        simp only [mapInsert, if_neg hlt, if_neg heq, getNames, List.map_cons,
          List.head?_cons]

theorem chain'_mapInsert (k : List Char) (fin : Bool) (v : JSONValue) :
    ∀ l : List (List Char × Bool × JSONValue),
      List.Chain' (fun a b => listCharLt a b = true) (getNames l) →
      List.Chain' (fun a b => listCharLt a b = true) (getNames (mapInsert k fin v l)) := by
  intro l
  induction l with
  | nil =>
    intro _
    show List.Chain' _ [k]
    exact List.chain'_singleton k
  | cons m rest ih =>
    intro hc
    obtain ⟨k2, f2, v2⟩ := m
    have hc2 : List.Chain' (fun a b => listCharLt a b = true) (getNames rest) :=
      (List.chain'_cons'.mp hc).2
    by_cases hlt : listCharLt k k2
    · simp only [mapInsert, if_pos hlt, getNames, List.map_cons]
      exact List.chain'_cons.mpr ⟨hlt, hc⟩
    · by_cases heq : k = k2
      · simp only [mapInsert, if_neg hlt, if_pos heq, getNames, List.map_cons]
        subst heq
        simpa [getNames] using hc
      · simp only [mapInsert, if_neg hlt, if_neg heq, getNames, List.map_cons]
        apply List.chain'_cons'.mpr
        refine ⟨?_, ih hc2⟩
        intro y hy
        rcases mapInsert_names_head k fin v rest with hh | hh
        · simp only [getNames] at hh
          rw [hh] at hy
          cases hy
          have hf : listCharLt k k2 = false := by
            cases hv : listCharLt k k2
            · rfl
            · exact absurd hv hlt
          exact listCharLt_total k k2 hf heq
        · simp only [getNames] at hh
          rw [hh] at hy
          exact (List.chain'_cons'.mp hc).1 y hy

/-- C6 counterexample: members are inserted in the order b then a, yet the
parsed object stores them in the order a then b, getNames lists a before
b, and serialization emits a before b: member insertion order is not
preserved (the member container of json.hpp line 281 is a std::map sorted
by key). -/
theorem object_member_order_is_sorted_not_insertion :
    JSON.parse default_limits (chars ("\x7b\"b\":null,\"a\":null\x7d"))
      = .ok (.object [(chars ("a"), false, .null), (chars ("b"), false, .null)])
    ∧ getNames [(chars ("a"), false, .null), (chars ("b"), false, .null)]
        = [chars ("a"), chars ("b")]
    ∧ toJSON (.object [(chars ("a"), false, .null), (chars ("b"), false, .null)])
        = chars ("\x7b\"a\":null,\"b\":null\x7d")
    ∧ ([chars ("a"), chars ("b")] : List (List Char)) ≠ [chars ("b"), chars ("a")] :=
  ⟨rfl, rfl, rfl, by decide⟩

/-- C6 amended: a JSON object stores its members in a map ordered by the
member name (std::map, json.hpp line 281): however members are inserted,
the stored name sequence, which getNames returns and serialization walks,
is strictly ascending in byte-wise key order, hence deterministic, and is
the sorted order rather than the insertion order. -/
theorem object_names_always_sorted (inserts : List (List Char × JSONValue)) :
    List.Chain' (fun a b => listCharLt a b = true)
      (getNames (inserts.foldl (fun acc kv => mapInsert kv.1 false kv.2 acc) [])) := by
  suffices h : ∀ acc : List (List Char × Bool × JSONValue),
      List.Chain' (fun a b => listCharLt a b = true) (getNames acc) →
      List.Chain' (fun a b => listCharLt a b = true)
        (getNames (inserts.foldl (fun acc kv => mapInsert kv.1 false kv.2 acc) acc)) by
    exact h [] (by simp [getNames])
  induction inserts with
  | nil => intro acc hacc; simpa using hacc
  | cons kv rest ih =>
    intro acc hacc
    simp only [List.foldl_cons]
    exact ih (mapInsert kv.1 false kv.2 acc) (chain'_mapInsert kv.1 false kv.2 acc hacc)

/-- C7 counterexample: a single space after the top-level value already
fails the parse with the trailing-bytes MalformedJSON: JSON::parse
(json.cpp line 236) compares the end position of the value against the
source size without skipping whitespace first. -/
theorem trailing_whitespace_after_value_rejected :
    JSON.parse default_limits (chars ("\x7b\x7d ")) =
      .error (.malformedJSON ("Trailing byes in JSON text")) := rfl

/-- C7 amended: whenever the dispatch stage of JSON::parse accepts a
top-level value ending at some position, the parse as a whole succeeds
exactly when that position is the end of the input; any trailing byte,
whitespace included, yields the trailing-bytes MalformedJSON. -/
theorem parse_rejects_any_trailing_bytes (lim : Limits) (json : List Char)
    (vp : JSONValue × Nat) (h : JSON.parseTop lim json = .ok vp) :
    JSON.parse lim json =
      if vp.2 < json.length then .error (.malformedJSON ("Trailing byes in JSON text"))
      else .ok vp.1 := by
  unfold JSON.parse
  rw [h]

theorem parse_rejects_any_trailing_bytes_witness :
    JSON.parse default_limits (chars (" \x7b\x7d")) = .ok (.object []) := by
  have h := parse_rejects_any_trailing_bytes default_limits (chars (" \x7b\x7d"))
    (.object [], 3) rfl
  simpa [chars] using h

theorem isHexDigitC_ranges {c : Char} (h : isHexDigitC c = true) :
    (48 ≤ c.toNat ∧ c.toNat ≤ 57) ∨ (65 ≤ c.toNat ∧ c.toNat ≤ 70)
      ∨ (97 ≤ c.toNat ∧ c.toNat ≤ 102) := by
  have h2 := h
  simp only [isHexDigitC, isDigitC, Bool.or_eq_true, Bool.and_eq_true,
    decide_eq_true_eq] at h2
  tauto

theorem hexDigitVal_lt {c : Char} (h : isHexDigitC c = true) : hexDigitVal c < 16 := by
  have hr := isHexDigitC_ranges h
  unfold hexDigitVal
  split_ifs with hd he
  · simp only [isDigitC, Bool.and_eq_true, decide_eq_true_eq] at hd
    omega
  · simp only [Bool.and_eq_true, decide_eq_true_eq] at he
    omega
  · simp only [isDigitC, Bool.and_eq_true, decide_eq_true_eq, not_and, not_le] at hd
    simp only [Bool.and_eq_true, decide_eq_true_eq, not_and, not_le] at he
    rcases hr with hr | hr | hr <;> omega

theorem hex_not_special {c : Char} (h : isHexDigitC c = true) :
    isSpaceC c = false ∧ c ≠ '-' ∧ c ≠ '+' ∧ c ≠ 'x' ∧ c ≠ 'X' := by
  refine ⟨?_, ?_, ?_, ?_, ?_⟩
  · have hr := isHexDigitC_ranges h
    simp only [isSpaceC, Bool.or_eq_false_iff, Bool.and_eq_false_iff,
      beq_eq_false_iff_ne, ne_eq, decide_eq_false_iff_not, not_le]
    omega
  · intro he; rw [he] at h; exact absurd h (by decide)
  · intro he; rw [he] at h; exact absurd h (by decide)
  · intro he; rw [he] at h; exact absurd h (by decide)
  · intro he; rw [he] at h; exact absurd h (by decide)

theorem hexDigitsVal_four_lt (c1 c2 c3 c4 : Char) (h1 : isHexDigitC c1 = true)
    (h2 : isHexDigitC c2 = true) (h3 : isHexDigitC c3 = true)
    (h4 : isHexDigitC c4 = true) : hexDigitsVal [c1, c2, c3, c4] < 65536 := by
  have b1 := hexDigitVal_lt h1
  have b2 := hexDigitVal_lt h2
  have b3 := hexDigitVal_lt h3
  have b4 := hexDigitVal_lt h4
  simp only [hexDigitsVal, List.foldl_cons, List.foldl_nil, Nat.zero_mul, Nat.zero_add]
  omega

/-- C8 amended: the four bytes after a backslash-u escape are handed to
std::stoi with base 16, whose strtol semantics also admit leading
whitespace, a sign, or a 0x prefix within the four positions; when the
four bytes are hexadecimal digits the escape is always accepted, the four
digits are decoded as a code point, and its UTF-8 encoding is returned for
appending to the string under construction. -/
theorem unicode_escape_four_hex_digits_decode (c1 c2 c3 c4 : Char)
    (h1 : isHexDigitC c1 = true) (h2 : isHexDigitC c2 = true)
    (h3 : isHexDigitC c3 = true) (h4 : isHexDigitC c4 = true) :
    hex_to_utf8 [c1, c2, c3, c4] =
      .ok ((utf8EncodeCodept (hexDigitsVal [c1, c2, c3, c4])).getD []) := by
  obtain ⟨hs1, hm1, hp1, hx1, hX1⟩ := hex_not_special h1
  obtain ⟨hs2, hm2, hp2, hx2, hX2⟩ := hex_not_special h2
  have hv := hexDigitsVal_four_lt c1 c2 c3 c4 h1 h2 h3 h4
  have hstoi : stoi16 [c1, c2, c3, c4] = some ((hexDigitsVal [c1, c2, c3, c4] : Int), 4) := by
    have hws : List.takeWhile isSpaceC [c1, c2, c3, c4] = [] := by
      simp [List.takeWhile_cons, hs1]
    have hwd : List.dropWhile isSpaceC [c1, c2, c3, c4] = [c1, c2, c3, c4] := by
      simp [List.dropWhile_cons, hs1]
    have hpre : ¬(c1 = '0' ∧ (c2 = 'x' ∨ c2 = 'X') ∧ isHexDigitC c3 = true) := by
      rintro ⟨-, hx, -⟩
      rcases hx with hx | hx
      · exact hx2 hx
      · exact hX2 hx
    have htw : List.takeWhile isHexDigitC [c1, c2, c3, c4] = [c1, c2, c3, c4] := by
      simp [List.takeWhile_cons, h1, h2, h3, h4]
    have hrange : (-(2 ^ 31 : Int) ≤ (hexDigitsVal [c1, c2, c3, c4] : Int))
        ∧ ((hexDigitsVal [c1, c2, c3, c4] : Int) ≤ 2 ^ 31 - 1) := by
      have hc : ((hexDigitsVal [c1, c2, c3, c4] : Nat) : Int) < 65536 := by
        exact_mod_cast hv
      have hnn : (0 : Int) ≤ (hexDigitsVal [c1, c2, c3, c4] : Int) :=
        Int.natCast_nonneg _
      omega
    unfold stoi16
    rw [hws, hwd]
    simp only [List.length_nil, hm1, hp1, decide_eq_true_eq, or_self,
      Bool.or_eq_true, if_false, List.drop_zero]
    rw [if_neg hpre]
    simp only [List.drop_zero, htw, if_false]
    rw [if_neg (by simp : ¬([c1, c2, c3, c4] : List Char) = [])]
    rw [if_pos (by simpa [Bool.and_eq_true, decide_eq_true_eq] using hrange)]
    norm_num
  unfold hex_to_utf8
  rw [hstoi]
  simp only [ne_eq, not_true_eq_false, if_false, reduceIte]
  have hmod : (((hexDigitsVal [c1, c2, c3, c4] : Int)) % (2 ^ 32 : Int)).toNat
      = hexDigitsVal [c1, c2, c3, c4] := by
    rw [Int.emod_eq_of_lt (by positivity) (by exact_mod_cast hv.trans (by norm_num))]
    exact Int.toNat_natCast _
  rw [hmod]
  cases hu : utf8EncodeCodept (hexDigitsVal [c1, c2, c3, c4]) with
  | none =>
    exfalso
    unfold utf8EncodeCodept at hu
    split_ifs at hu <;> omega
  | some u => simp

theorem unicode_escape_four_hex_digits_decode_witness :
    hex_to_utf8 (chars ("00e9")) =
      .ok ((utf8EncodeCodept (hexDigitsVal (chars ("00e9")))).getD []) :=
  unicode_escape_four_hex_digits_decode '0' '0' 'e' '9'
    (by decide) (by decide) (by decide) (by decide)

/-- C8 counterexample: the escape backslash-u followed by the four bytes
+123 is accepted by the string parser, producing the UTF-8 encoding of
code point 0x123, although a plus sign is not a hexadecimal digit: the
std::stoi call inside hex_to_utf8 accepts a sign among the four bytes, so
acceptance is not equivalent to the four bytes being hexadecimal digits. -/
theorem unicode_escape_accepts_sign_form :
    JSON.parseString default_limits (chars ("\"\\u+123\"")) 0
      = .ok (.strval [Char.ofNat 0xC4, Char.ofNat 0xA3], 8)
    ∧ isHexDigitC '+' = false := by
  refine ⟨?_, ?_⟩ <;> rfl

theorem utf8wfF_nul :
    ∀ (fuel : Nat) (s : List Char), Char.ofNat 0 ∈ s → utf8wfF fuel s = false := by
  intro fuel
  induction fuel with
  | zero => intro s _; rfl
  | succ f ih =>
    intro s hmem
    cases s with
    | nil => simp at hmem
    | cons c rest =>
      simp only [utf8wfF]
      by_cases hascii : 0 < c.toNat ∧ c.toNat ≤ 127
      · rw [if_pos hascii]
        apply ih
        rcases List.mem_cons.mp hmem with hc | hc
        · exfalso
          have h0 : c.toNat = 0 := by rw [← hc]; rfl
          omega
        · exact hc
      · rw [if_neg hascii]
        by_cases hl : 255 - c.toNat = 0
        · rw [if_pos hl]
        · rw [if_neg hl]
          by_cases hrange : 8 - bitSize8 (255 - c.toNat) < 2 ∨ 6 < 8 - bitSize8 (255 - c.toNat)
          · rw [if_pos hrange]
          · rw [if_neg hrange]
            by_cases hlen : rest.length + 1 < 8 - bitSize8 (255 - c.toNat)
            · rw [if_pos hlen]
            · rw [if_neg hlen]
              have hc0 : c.toNat ≠ 0 := by
                intro h0
                rw [h0] at hrange
                have hsz : bitSize8 (255 - 0) = 8 := by decide
                rw [hsz] at hrange
                omega
              have hmr : Char.ofNat 0 ∈ rest := by
                rcases List.mem_cons.mp hmem with hc | hc
                · exact absurd (by rw [← hc]; rfl) hc0
                · exact hc
              by_cases hcont : (rest.take (8 - bitSize8 (255 - c.toNat) - 1)).all
                  (fun d => decide (128 ≤ d.toNat) && decide (d.toNat ≤ 191)) = true
              · rw [if_pos hcont]
                apply ih
                have hsplit : Char.ofNat 0 ∈
                    rest.take (8 - bitSize8 (255 - c.toNat) - 1)
                      ++ rest.drop (8 - bitSize8 (255 - c.toNat) - 1) := by
                  rw [List.take_append_drop]
                  exact hmr
                rcases List.mem_append.mp hsplit with hin | hin
                · exfalso
                  have hall := List.all_eq_true.mp hcont _ hin
                  simp only [Bool.and_eq_true, decide_eq_true_eq] at hall
                  have : (Char.ofNat 0).toNat = 0 := rfl
                  omega
                · exact hin
              · rw [if_neg hcont]

/-- C10: any string holding a NUL byte is rejected by the UTF-8
well-formedness validation (for byte zero the complement trick of
test_wellformed_utf8 computes a character length of zero, below the legal
minimum of two, and a NUL in a continuation position fails the 10xxxxxx
pattern), so JSON::makeString fails on every such string, with the
malformed-UTF-8 message whenever the string is within the size limit that
is checked first, and the string parser never returns a string containing
a NUL byte. -/
theorem nul_byte_strings_rejected (s : List Char) (hmem : Char.ofNat 0 ∈ s) :
    test_wellformed_utf8 s = false
    ∧ (∃ msg, JSON.makeString s = .error (.jsonException msg))
    ∧ (s.length ≤ default_limits.string_size →
        JSON.makeString s = .error (.jsonException ("malformed UTF-8")))
    ∧ (∀ (lim : Limits) (json : List Char) (pos : Nat) (t : List Char) (p : Nat),
        JSON.parseString lim json pos = .ok (.strval t, p) → Char.ofNat 0 ∉ t) := by
  have hwf : test_wellformed_utf8 s = false := utf8wfF_nul _ s hmem
  refine ⟨hwf, ?_, ?_, ?_⟩
  · by_cases hlen : s.length > default_limits.string_size
    · exact ⟨"string size exceeds allowed limit", by simp [JSON.makeString, hlen]⟩
    · exact ⟨"malformed UTF-8", by simp [JSON.makeString, hlen, hwf]⟩
  · intro hlen
    have hgt : ¬ s.length > default_limits.string_size := by omega
    simp [JSON.makeString, hgt, hwf]
  · intro lim json pos t p hok hmem2
    simp only [JSON.parseString] at hok
    split at hok
    · exact absurd hok (by simp)
    · split at hok
      · exact absurd hok (by simp)
      · split_ifs at hok with hsz hwf2
        all_goals first
          | exact Except.noConfusion hok
          | (cases hok
             unfold test_wellformed_utf8 at hwf2
             rw [utf8wfF_nul _ _ hmem2] at hwf2
             exact Bool.false_ne_true hwf2)

theorem nul_byte_strings_rejected_witness :
    test_wellformed_utf8 [Char.ofNat 0] = false
    ∧ JSON.makeString [Char.ofNat 0] = .error (.jsonException ("malformed UTF-8")) := by
  have h := nul_byte_strings_rejected [Char.ofNat 0] (by simp)
  exact ⟨h.1, h.2.2.1 (by decide)⟩

theorem digit_facts {c : Char} (h : isDigitC c = true) :
    isSpaceC c = false ∧ c ≠ '-' ∧ c ≠ '+' := by
  refine ⟨?_, ?_, ?_⟩
  · have hr : 48 ≤ c.toNat ∧ c.toNat ≤ 57 := by
      simpa [isDigitC, Bool.and_eq_true, decide_eq_true_eq] using h
    simp only [isSpaceC, Bool.or_eq_false_iff, Bool.and_eq_false_iff,
      beq_eq_false_iff_ne, ne_eq, decide_eq_false_iff_not, not_le]
    omega
  · intro he; rw [he] at h; exact absurd h (by decide)
  · intro he; rw [he] at h; exact absurd h (by decide)

theorem getC_lt_of_digit {json : List Char} {p : Nat}
    (h : isDigitC (getC json p) = true) : p < json.length := by
  by_contra hge
  have hd : getC json p = Char.ofNat 0 := by
    unfold getC
    exact List.getD_eq_default _ _ (by omega)
  rw [hd] at h
  exact absurd h (by decide)

theorem getC_lt_of_ne {json : List Char} {p : Nat} {c : Char}
    (hc : getC json p = c) (hne : c ≠ Char.ofNat 0) : p < json.length := by
  by_contra hge
  have hd : getC json p = Char.ofNat 0 := by
    unfold getC
    exact List.getD_eq_default _ _ (by omega)
  exact hne (hc ▸ hd ▸ rfl)

theorem sub_self (json : List Char) (a : Nat) : sub json a a = [] := by
  simp [sub]

theorem sub_single {json : List Char} {p : Nat} (h : p < json.length) :
    sub json p (p + 1) = [getC json p] := by
  unfold sub getC
  have h1 : p + 1 - p = 1 := by omega
  rw [h1]
  cases hd : json.drop p with
  | nil =>
    have : json.length ≤ p := by
      have := List.drop_eq_nil_iff.mp hd
      omega
    omega
  | cons x xs =>
    have hx : json.getD p (Char.ofNat 0) = x := by
      have h0 : (json.drop p).getD 0 (Char.ofNat 0) = json.getD p (Char.ofNat 0) := by
        simp [List.getD_eq_getElem?_getD, List.getElem?_drop]
      rw [← h0, hd]
      rfl
    rw [hx]
    rfl

theorem sub_split (json : List Char) {a b c : Nat} (hab : a ≤ b) (hbc : b ≤ c) :
    sub json a c = sub json a b ++ sub json b c := by
  unfold sub
  rw [show c - a = (b - a) + (c - b) by omega, List.take_add]
  congr 2
  rw [List.drop_drop]
  congr 1
  omega

theorem sub_length {json : List Char} {a b : Nat} (hb : b ≤ json.length)
    (hab : a ≤ b) : (sub json a b).length = b - a := by
  simp only [sub, List.length_take, List.length_drop]
  omega

theorem sub_take {json : List Char} {a b k : Nat} (h : k ≤ b - a) :
    (sub json a b).take k = sub json a (a + k) := by
  unfold sub
  rw [List.take_take]
  congr 1
  omega

theorem takeWhile_all_self (q : Char → Bool) :
    ∀ l : List Char, (l.takeWhile q).all q = true := by
  intro l
  induction l with
  | nil => rfl
  | cons x xs ih =>
    rw [List.takeWhile_cons]
    by_cases hq : q x
    · simp [hq, ih]
    · simp [hq]

theorem takeWhile_append_of_all {q : Char → Bool} {xs ys : List Char}
    (hxs : xs.all q = true) (hys : ∀ x ∈ ys.head?, q x = false) :
    (xs ++ ys).takeWhile q = xs := by
  induction xs with
  | nil =>
    cases ys with
    | nil => rfl
    | cons y t =>
      have hy : q y = false := hys y rfl
      simp [List.takeWhile_cons, hy]
  | cons x xs ih =>
    simp only [List.all_cons, Bool.and_eq_true] at hxs
    simp [List.takeWhile_cons, hxs.1, ih hxs.2]

theorem dropWhile_of_head_false {q : Char → Bool} {l : List Char}
    (h : ∀ x ∈ l.head?, q x = false) : l.dropWhile q = l := by
  cases l with
  | nil => rfl
  | cons x xs =>
    have hx : q x = false := h x rfl
    simp [List.dropWhile_cons, hx]

theorem takeWhile_nil_of_head_false {q : Char → Bool} {l : List Char}
    (h : ∀ x ∈ l.head?, q x = false) : l.takeWhile q = [] := by
  cases l with
  | nil => rfl
  | cons x xs =>
    have hx : q x = false := h x rfl
    simp [List.takeWhile_cons, hx]

theorem take_takeWhile_len (q : Char → Bool) :
    ∀ l : List Char, l.take ((l.takeWhile q).length) = l.takeWhile q := by
  intro l
  induction l with
  | nil => rfl
  | cons x xs ih =>
    rw [List.takeWhile_cons]
    by_cases hq : q x
    · simp [hq, List.take_succ_cons, ih]
    · simp [hq]

theorem skipDigitsAux_eq :
    ∀ (l : List Char) (p : Nat), skipDigitsAux l p = p + (l.takeWhile isDigitC).length := by
  intro l
  induction l with
  | nil => intro p; simp [skipDigitsAux]
  | cons x xs ih =>
    intro p
    rw [skipDigitsAux, List.takeWhile_cons]
    by_cases hq : isDigitC x
    · simp only [hq, if_true, ih (p + 1), List.length_cons]
      omega
    · simp [hq]

theorem skipDigits_eq (json : List Char) (p : Nat) :
    skipDigits json p = p + ((json.drop p).takeWhile isDigitC).length :=
  skipDigitsAux_eq _ _

theorem skipDigits_le_length {json : List Char} {p : Nat} (h : p ≤ json.length) :
    skipDigits json p ≤ json.length := by
  rw [skipDigits_eq]
  have h1 : ((json.drop p).takeWhile isDigitC).length ≤ (json.drop p).length :=
    (List.takeWhile_prefix _).length_le
  simp only [List.length_drop] at h1
  omega

theorem skipDigits_ge (json : List Char) (p : Nat) : p ≤ skipDigits json p := by
  rw [skipDigits_eq]; omega

theorem sub_skipDigits (json : List Char) (p : Nat) :
    sub json p (skipDigits json p) = (json.drop p).takeWhile isDigitC := by
  unfold sub
  rw [skipDigits_eq]
  rw [show p + ((json.drop p).takeWhile isDigitC).length - p
    = ((json.drop p).takeWhile isDigitC).length by omega]
  exact take_takeWhile_len _ _

theorem stollWithLen_cons_digit {d : Char} {r : List Char} (hd : isDigitC d = true) :
    stollWithLen (d :: r) =
      (if (decide (-(2 ^ 63 : Int) ≤ (decDigitsVal ((d :: r).takeWhile isDigitC) : Int))
          && decide ((decDigitsVal ((d :: r).takeWhile isDigitC) : Int) ≤ 2 ^ 63 - 1)) = true
       then some ((decDigitsVal ((d :: r).takeWhile isDigitC) : Int),
         ((d :: r).takeWhile isDigitC).length)
       else none) := by
  obtain ⟨hdns, hdnm, hdnp⟩ := digit_facts hd
  unfold stollWithLen
  rw [takeWhile_nil_of_head_false (by intro x hx; cases hx; exact hdns),
    dropWhile_of_head_false (by intro x hx; cases hx; exact hdns)]
  simp only [List.length_nil, decide_eq_true_eq, hdnm, hdnp, or_self, if_false,
    List.drop_zero, decide_False, Bool.or_self, Bool.false_eq_true, List.takeWhile_cons,
    hd, if_true]
  rw [if_neg (by simp : ¬(d :: List.takeWhile isDigitC r) = [])]
  norm_num

theorem stollWithLen_cons_minus {d : Char} {r : List Char} (hd : isDigitC d = true) :
    stollWithLen ('-' :: d :: r) =
      (if (decide (-(2 ^ 63 : Int) ≤ -(decDigitsVal ((d :: r).takeWhile isDigitC) : Int))
          && decide (-(decDigitsVal ((d :: r).takeWhile isDigitC) : Int) ≤ 2 ^ 63 - 1)) = true
       then some (-(decDigitsVal ((d :: r).takeWhile isDigitC) : Int),
         1 + ((d :: r).takeWhile isDigitC).length)
       else none) := by
  have hmns : isSpaceC '-' = false := by decide
  unfold stollWithLen
  rw [takeWhile_nil_of_head_false (by intro x hx; cases hx; exact hmns),
    dropWhile_of_head_false (by intro x hx; cases hx; exact hmns)]
  simp only [List.length_nil, decide_eq_true_eq, decide_True, Bool.true_or,
    if_true, List.drop_succ_cons, List.drop_zero, List.takeWhile_cons, hd]
  try rw [if_neg (by simp : ¬(d :: List.takeWhile isDigitC r) = [])]
  try norm_num

theorem int64OfText_cons_digit {d : Char} {r : List Char} (hd : isDigitC d = true) :
    int64OfText (d :: r) =
      (if (d :: r).all isDigitC = true then
        (if -(2 ^ 63 : Int) ≤ (decDigitsVal (d :: r) : Int)
            ∧ (decDigitsVal (d :: r) : Int) ≤ 2 ^ 63 - 1
         then some (decDigitsVal (d :: r) : Int) else none)
       else none) := by
  obtain ⟨hdns, hdnm, hdnp⟩ := digit_facts hd
  unfold int64OfText
  simp only [decide_eq_true_eq, hdnm, hdnp, or_self, if_false, List.drop_zero,
    decide_False, Bool.or_self, Bool.false_eq_true, ne_eq, reduceCtorEq,
    not_false_eq_true, true_and]
  try split_ifs <;> tauto

theorem int64OfText_cons_minus {d : Char} {r : List Char} (hd : isDigitC d = true) :
    int64OfText ('-' :: d :: r) =
      (if (d :: r).all isDigitC = true then
        (if -(2 ^ 63 : Int) ≤ -(decDigitsVal (d :: r) : Int)
            ∧ -(decDigitsVal (d :: r) : Int) ≤ 2 ^ 63 - 1
         then some (-(decDigitsVal (d :: r) : Int)) else none)
       else none) := by
  unfold int64OfText
  simp only [decide_eq_true_eq, decide_True, Bool.true_or, if_true, if_pos (Or.inl rfl),
    List.drop_succ_cons, List.drop_zero, ne_eq, reduceCtorEq, not_false_eq_true,
    true_and]
  try split_ifs <;> tauto

theorem stollWithLen_decomp (sgn ds tail : List Char)
    (hsgn : sgn = [] ∨ sgn = ['-'])
    (hds : ds ≠ []) (hall : ds.all isDigitC = true)
    (htail : ∀ x ∈ tail.head?, isDigitC x = false) :
    stollWithLen (sgn ++ ds ++ tail) =
      if -(2 ^ 63 : Int) ≤ (if sgn = ['-'] then -(decDigitsVal ds : Int)
            else (decDigitsVal ds : Int))
          ∧ (if sgn = ['-'] then -(decDigitsVal ds : Int)
            else (decDigitsVal ds : Int)) ≤ 2 ^ 63 - 1
      then some ((if sgn = ['-'] then -(decDigitsVal ds : Int)
            else (decDigitsVal ds : Int)), sgn.length + ds.length)
      else none := by
  obtain ⟨d, ds2, rfl⟩ : ∃ d ds2, ds = d :: ds2 := by
    cases ds with
    | nil => exact absurd rfl hds
    | cons d ds2 => exact ⟨d, ds2, rfl⟩
  have hd : isDigitC d = true := by
    simp only [List.all_cons, Bool.and_eq_true] at hall
    exact hall.1
  have htw : List.takeWhile isDigitC (d :: (ds2 ++ tail)) = d :: ds2 := by
    rw [← List.cons_append]
    exact takeWhile_append_of_all hall htail
  rcases hsgn with rfl | rfl
  · simp only [List.nil_append, List.cons_append]
    rw [stollWithLen_cons_digit hd]
    rw [show List.takeWhile isDigitC (d :: (ds2 ++ tail)) = d :: ds2 from htw]
    simp only [List.length_nil, List.length_cons, reduceCtorEq, if_false,
      Bool.and_eq_true, decide_eq_true_eq]
    by_cases hr : -(2 ^ 63 : Int) ≤ (decDigitsVal (d :: ds2) : Int)
        ∧ (decDigitsVal (d :: ds2) : Int) ≤ 2 ^ 63 - 1
    · rw [if_pos hr, if_pos hr]
      norm_num
    · rw [if_neg hr, if_neg hr]
  · simp only [List.cons_append, List.nil_append]
    rw [stollWithLen_cons_minus hd]
    rw [show List.takeWhile isDigitC (d :: (ds2 ++ tail)) = d :: ds2 from htw]
    simp only [List.length_cons, List.length_nil, eq_self_iff_true, if_true,
      Bool.and_eq_true, decide_eq_true_eq]

theorem int64OfText_pure (sgn ds : List Char)
    (hsgn : sgn = [] ∨ sgn = ['-'])
    (hds : ds ≠ []) (hall : ds.all isDigitC = true) :
    int64OfText (sgn ++ ds) =
      if -(2 ^ 63 : Int) ≤ (if sgn = ['-'] then -(decDigitsVal ds : Int)
            else (decDigitsVal ds : Int))
          ∧ (if sgn = ['-'] then -(decDigitsVal ds : Int)
            else (decDigitsVal ds : Int)) ≤ 2 ^ 63 - 1
      then some (if sgn = ['-'] then -(decDigitsVal ds : Int)
            else (decDigitsVal ds : Int))
      else none := by
  obtain ⟨d, ds2, rfl⟩ : ∃ d ds2, ds = d :: ds2 := by
    cases ds with
    | nil => exact absurd rfl hds
    | cons d ds2 => exact ⟨d, ds2, rfl⟩
  have hd : isDigitC d = true := by
    simp only [List.all_cons, Bool.and_eq_true] at hall
    exact hall.1
  rcases hsgn with rfl | rfl
  · simp only [List.nil_append]
    rw [int64OfText_cons_digit hd, if_pos hall]
    try simp only [reduceCtorEq, if_false]
  · simp only [List.cons_append, List.nil_append]
    rw [int64OfText_cons_minus hd, if_pos hall]
    try simp only [eq_self_iff_true, if_true]

theorem int64OfText_extra_none (sgn ds extra : List Char)
    (hsgn : sgn = [] ∨ sgn = ['-'])
    (hds : ds ≠ []) (hall : ds.all isDigitC = true)
    (hex : ∃ x xs, extra = x :: xs ∧ isDigitC x = false) :
    int64OfText (sgn ++ ds ++ extra) = none := by
  obtain ⟨d, ds2, rfl⟩ : ∃ d ds2, ds = d :: ds2 := by
    cases ds with
    | nil => exact absurd rfl hds
    | cons d ds2 => exact ⟨d, ds2, rfl⟩
  have hd : isDigitC d = true := by
    simp only [List.all_cons, Bool.and_eq_true] at hall
    exact hall.1
  obtain ⟨x, xs, rfl, hx⟩ := hex
  have hallf : (d :: (ds2 ++ x :: xs)).all isDigitC = false := by
    rw [← List.cons_append, List.all_append]
    simp [List.all_cons, hx]
  rcases hsgn with rfl | rfl
  · simp only [List.nil_append, List.cons_append]
    rw [int64OfText_cons_digit hd, if_neg (by rw [hallf]; exact Bool.false_ne_true)]
  · simp only [List.cons_append, List.nil_append]
    rw [int64OfText_cons_minus hd, if_neg (by rw [hallf]; exact Bool.false_ne_true)]

theorem stoldConsumed_cons_digit {d : Char} {r : List Char} (hd : isDigitC d = true) :
    stoldConsumed (d :: r) =
      ((d :: r).takeWhile isDigitC).length
        + tailFrExp ((d :: r).drop ((d :: r).takeWhile isDigitC).length) := by
  obtain ⟨hdns, hdnm, hdnp⟩ := digit_facts hd
  unfold stoldConsumed tailFrExp tailExpLen
  rw [takeWhile_nil_of_head_false (by intro x hx; cases hx; exact hdns),
    dropWhile_of_head_false (by intro x hx; cases hx; exact hdns)]
  simp only [List.length_nil, decide_eq_true_eq, hdnm, hdnp, or_self, if_false,
    List.drop_zero, decide_False, Bool.or_self, Bool.false_eq_true,
    List.takeWhile_cons, hd, if_true]
  rw [if_neg (by simp : ¬((d :: List.takeWhile isDigitC r).length = 0
    ∧ (match (d :: r).drop (d :: List.takeWhile isDigitC r).length with
        | c :: rest => if c = '.' then 1 + (rest.takeWhile isDigitC).length else 0
        | [] => 0) ≤ 1))]
  omega

theorem stoldConsumed_cons_minus {d : Char} {r : List Char} (hd : isDigitC d = true) :
    stoldConsumed ('-' :: d :: r) =
      1 + ((d :: r).takeWhile isDigitC).length
        + tailFrExp ((d :: r).drop ((d :: r).takeWhile isDigitC).length) := by
  have hmns : isSpaceC '-' = false := by decide
  unfold stoldConsumed tailFrExp tailExpLen
  rw [takeWhile_nil_of_head_false (by intro x hx; cases hx; exact hmns),
    dropWhile_of_head_false (by intro x hx; cases hx; exact hmns)]
  simp only [List.length_nil, decide_eq_true_eq, decide_True, Bool.true_or, if_true,
    List.drop_succ_cons, List.drop_zero, List.takeWhile_cons, hd]
  rw [if_neg (by simp : ¬((d :: List.takeWhile isDigitC r).length = 0
    ∧ (match (d :: r).drop (d :: List.takeWhile isDigitC r).length with
        | c :: rest => if c = '.' then 1 + (rest.takeWhile isDigitC).length else 0
        | [] => 0) ≤ 1))]
  omega

theorem stoldConsumed_decomp (sgn ds tail : List Char)
    (hsgn : sgn = [] ∨ sgn = ['-'])
    (hds : ds ≠ []) (hall : ds.all isDigitC = true)
    (htail : ∀ x ∈ tail.head?, isDigitC x = false) :
    stoldConsumed (sgn ++ ds ++ tail) = sgn.length + ds.length + tailFrExp tail := by
  obtain ⟨d, ds2, rfl⟩ : ∃ d ds2, ds = d :: ds2 := by
    cases ds with
    | nil => exact absurd rfl hds
    | cons d ds2 => exact ⟨d, ds2, rfl⟩
  have hd : isDigitC d = true := by
    simp only [List.all_cons, Bool.and_eq_true] at hall
    exact hall.1
  have htw : List.takeWhile isDigitC (d :: (ds2 ++ tail)) = d :: ds2 := by
    rw [← List.cons_append]
    exact takeWhile_append_of_all hall htail
  have hdr : (d :: (ds2 ++ tail)).drop (d :: ds2).length = tail := by
    simp only [List.length_cons, List.drop_succ_cons]
    exact List.drop_left _ _
  rcases hsgn with rfl | rfl
  · simp only [List.nil_append, List.cons_append]
    rw [stoldConsumed_cons_digit hd, htw, hdr]
    simp only [List.length_nil, List.length_cons]
    omega
  · simp only [List.cons_append, List.nil_append]
    rw [stoldConsumed_cons_minus hd, htw, hdr]
    simp only [List.length_cons, List.length_nil]

theorem takeWhile_of_all {q : Char → Bool} {l : List Char}
    (h : l.all q = true) : l.takeWhile q = l := by
  induction l with
  | nil => rfl
  | cons x xs ih =>
    simp only [List.all_cons, Bool.and_eq_true] at h
    simp [List.takeWhile_cons, h.1, ih h.2]

theorem tailExpLen_nil : tailExpLen [] = 0 := rfl

theorem tailExpLen_e (ec : Char) (sgn2 es : List Char)
    (he : ec = 'e' ∨ ec = 'E')
    (hsgn2 : sgn2 = [] ∨ sgn2 = ['+'] ∨ sgn2 = ['-'])
    (hes : es.all isDigitC = true) :
    tailExpLen (ec :: (sgn2 ++ es)) =
      if es = [] then 0 else 1 + sgn2.length + es.length := by
  have hec : (decide (ec = 'e') || decide (ec = 'E')) = true := by
    rcases he with rfl | rfl <;> simp
  unfold tailExpLen
  simp only [hec, if_true]
  rcases hsgn2 with rfl | rfl | rfl
  · cases es with
    | nil => simp
    | cons d es2 =>
      have hd : isDigitC d = true := by
        simp only [List.all_cons, Bool.and_eq_true] at hes
        exact hes.1
      obtain ⟨-, hdm, hdp⟩ := digit_facts hd
      simp [hdm, hdp, takeWhile_of_all hes, Nat.add_comm]
  · cases es with
    | nil => simp
    | cons d es2 => simp [takeWhile_of_all hes, Nat.add_comm]
  · cases es with
    | nil => simp
    | cons d es2 => simp [takeWhile_of_all hes, Nat.add_comm]

theorem tailFrExp_dot_digits (fs r : List Char) (hfs : fs.all isDigitC = true)
    (hr : ∀ x ∈ r.head?, isDigitC x = false) :
    tailFrExp ('.' :: (fs ++ r)) = 1 + fs.length + tailExpLen r := by
  have htw : List.takeWhile isDigitC (fs ++ r) = fs :=
    takeWhile_append_of_all hfs hr
  unfold tailFrExp
  simp only [if_pos rfl, if_true, htw]
  rw [Nat.add_comm 1 fs.length, List.drop_succ_cons, List.drop_left,
    Nat.add_comm fs.length 1]

theorem tailFrExp_nodot (r : List Char) (h : ∀ x ∈ r.head?, x ≠ '.') :
    tailFrExp r = tailExpLen r := by
  unfold tailFrExp
  cases r with
  | nil => rfl
  | cons c rest =>
    have hc : c ≠ '.' := h c rfl
    simp [hc]

theorem dropWhile_head_false (q : Char → Bool) (l : List Char) :
    ∀ x ∈ (l.dropWhile q).head?, q x = false := by
  induction l with
  | nil => intro x hx; cases hx
  | cons c rest ih =>
    intro x hx
    rw [List.dropWhile_cons] at hx
    by_cases hc : q c = true
    · rw [if_pos hc] at hx; exact ih x hx
    · rw [if_neg hc] at hx
      simp only [List.head?_cons, Option.mem_def, Option.some.injEq] at hx
      subst hx
      rw [Bool.not_eq_true] at hc
      exact hc

theorem getC_drop (json : List Char) (p k : Nat) :
    getC json (p + k) = getC (json.drop p) k := by
  unfold getC
  rw [List.getD_eq_getElem?_getD, List.getD_eq_getElem?_getD, List.getElem?_drop]

theorem getC_takeWhile_stop (l : List Char) :
    isDigitC (getC l (l.takeWhile isDigitC).length) = false := by
  induction l with
  | nil => decide
  | cons c rest ih =>
    rw [List.takeWhile_cons]
    by_cases hc : isDigitC c = true
    · rw [if_pos hc]
      simp only [List.length_cons, getC, List.getD_cons_succ]
      exact ih
    · rw [if_neg hc]
      simp only [List.length_nil, getC, List.getD_cons_zero]
      rw [Bool.not_eq_true] at hc
      exact hc

theorem skipDigits_stop (json : List Char) (p : Nat) :
    isDigitC (getC json (skipDigits json p)) = false := by
  rw [skipDigits_eq, getC_drop]
  exact getC_takeWhile_stop _

theorem scanExpPart_spec (json : List Char) (p : Nat) (isf : Bool)
    (hp : p < json.length) :
    ∃ sgn2 es : List Char,
      (sgn2 = [] ∨ sgn2 = ['+'] ∨ sgn2 = ['-']) ∧
      es.all isDigitC = true ∧
      (scanExpPart json p isf).1 = p + 1 + sgn2.length + es.length ∧
      (scanExpPart json p isf).1 ≤ json.length ∧
      (scanExpPart json p isf).2 = (isf || decide (es ≠ [])) ∧
      sub json p (scanExpPart json p isf).1 = getC json p :: (sgn2 ++ es) := by
  by_cases hs : (getC json (p + 1) = '+' || getC json (p + 1) = '-') = true
  · have hs2 : getC json (p + 1) = '+' ∨ getC json (p + 1) = '-' := by
      simpa only [Bool.or_eq_true, decide_eq_true_eq] using hs
    have hp1 : p + 1 < json.length := by
      rcases hs2 with h1 | h1 <;> exact getC_lt_of_ne h1 (by decide)
    have hred : scanExpPart json p isf
        = (skipDigits json (p + 1 + 1),
           isf || decide (p + 1 + 1 < skipDigits json (p + 1 + 1))) := by
      simp only [scanExpPart]
      rw [if_pos hs]
    have hq := skipDigits_eq json (p + 1 + 1)
    have h2q : p + 1 + 1 ≤ skipDigits json (p + 1 + 1) := skipDigits_ge _ _
    refine ⟨[getC json (p + 1)], (json.drop (p + 1 + 1)).takeWhile isDigitC,
      ?_, takeWhile_all_self _ _, ?_, ?_, ?_, ?_⟩
    · rcases hs2 with h1 | h1
      · exact Or.inr (Or.inl (by rw [h1]))
      · exact Or.inr (Or.inr (by rw [h1]))
    · simp only [hred]
      rw [hq]
      simp only [List.length_cons, List.length_nil]
    · simp only [hred]
      exact skipDigits_le_length (by omega)
    · simp only [hred]
      congr 1
      rw [hq, decide_eq_decide, ← List.length_pos]
      omega
    · simp only [hred]
      rw [sub_split json (by omega : p ≤ p + 1) (by omega : p + 1 ≤ skipDigits json (p + 1 + 1)),
        sub_split json (by omega : p + 1 ≤ p + 1 + 1) h2q,
        sub_single hp, sub_single hp1, sub_skipDigits]
      simp
  · have hred : scanExpPart json p isf
        = (skipDigits json (p + 1),
           isf || decide (p + 1 < skipDigits json (p + 1))) := by
      simp only [scanExpPart]
      rw [if_neg hs]
    have hq := skipDigits_eq json (p + 1)
    have h2q : p + 1 ≤ skipDigits json (p + 1) := skipDigits_ge _ _
    refine ⟨[], (json.drop (p + 1)).takeWhile isDigitC,
      Or.inl rfl, takeWhile_all_self _ _, ?_, ?_, ?_, ?_⟩
    · simp only [hred]
      rw [hq]
      simp only [List.length_nil]
    · simp only [hred]
      exact skipDigits_le_length (by omega)
    · simp only [hred]
      congr 1
      rw [hq, decide_eq_decide, ← List.length_pos]
      omega
    · simp only [hred]
      rw [sub_split json (by omega : p ≤ p + 1) h2q, sub_single hp, sub_skipDigits]
      simp

theorem scanFracExp_spec (json : List Char) (p : Nat) (hp : p ≤ json.length) :
    p ≤ (scanFracExp json p).1 ∧ (scanFracExp json p).1 ≤ json.length ∧
    (∀ x ∈ (sub json p (scanFracExp json p).1).head?, isDigitC x = false) ∧
    tailFrExp (sub json p (scanFracExp json p).1)
      ≤ (sub json p (scanFracExp json p).1).length ∧
    (((scanFracExp json p).2 = false
        ∧ tailFrExp (sub json p (scanFracExp json p).1) = 0)
      ∨ 1 ≤ tailFrExp (sub json p (scanFracExp json p).1)) := by
  by_cases hdot : getC json p = '.'
  · have hplt : p < json.length := getC_lt_of_ne hdot (by decide)
    have h1q : p + 1 ≤ skipDigits json (p + 1) := skipDigits_ge _ _
    have hqe := skipDigits_eq json (p + 1)
    by_cases hq1 : skipDigits json (p + 1) = p + 1
    · have hred : scanFracExp json p = (p + 1, false) := by
        simp only [scanFracExp]
        rw [if_pos hdot, if_pos hq1, hq1]
      have hsubT : sub json p (p + 1) = ['.'] := by
        rw [sub_single hplt, hdot]
      have htf : tailFrExp ['.'] = 1 := by
        have h := tailFrExp_dot_digits [] [] rfl (by intro x hx; cases hx)
        simpa [tailExpLen] using h
      simp only [hred, hsubT]
      refine ⟨by omega, by omega, ?_, by rw [htf]; simp, Or.inr (by rw [htf])⟩
      intro x hx
      simp only [List.head?_cons, Option.mem_def, Option.some.injEq] at hx
      subst hx
      decide
    · by_cases he : (getC json (skipDigits json (p + 1)) = 'e'
          || getC json (skipDigits json (p + 1)) = 'E') = true
      · have he2 : getC json (skipDigits json (p + 1)) = 'e'
            ∨ getC json (skipDigits json (p + 1)) = 'E' := by
          simpa only [Bool.or_eq_true, decide_eq_true_eq] using he
        have hqlt : skipDigits json (p + 1) < json.length := by
          rcases he2 with h1 | h1 <;> exact getC_lt_of_ne h1 (by decide)
        obtain ⟨sgn2, es, hshape, hesall, hend, hendle, hflag, hsubq⟩ :=
          scanExpPart_spec json (skipDigits json (p + 1)) true hqlt
        have hred : scanFracExp json p = scanExpPart json (skipDigits json (p + 1)) true := by
          simp only [scanFracExp]
          rw [if_pos hdot, if_neg hq1, if_pos he]
        have hqE : skipDigits json (p + 1) ≤ (scanExpPart json (skipDigits json (p + 1)) true).1 := by
          omega
        have hecd : isDigitC (getC json (skipDigits json (p + 1))) = false := by
          rcases he2 with h1 | h1 <;> rw [h1] <;> decide
        have hsubT : sub json p (scanExpPart json (skipDigits json (p + 1)) true).1
            = '.' :: (((json.drop (p + 1)).takeWhile isDigitC)
              ++ (getC json (skipDigits json (p + 1)) :: (sgn2 ++ es))) := by
          rw [sub_split json (by omega : p ≤ p + 1) (by omega), sub_single hplt, hdot,
            sub_split json h1q hqE, sub_skipDigits, hsubq]
          simp
        have htf : tailFrExp (sub json p (scanExpPart json (skipDigits json (p + 1)) true).1)
            = 1 + ((json.drop (p + 1)).takeWhile isDigitC).length
              + (if es = [] then 0 else 1 + sgn2.length + es.length) := by
          rw [hsubT, tailFrExp_dot_digits _ _ (takeWhile_all_self _ _)
            (by intro x hx
                simp only [List.head?_cons, Option.mem_def, Option.some.injEq] at hx
                subst hx
                exact hecd),
            tailExpLen_e _ _ _ he2 hshape hesall]
        have hTlen : (sub json p (scanExpPart json (skipDigits json (p + 1)) true).1).length
            = 1 + ((json.drop (p + 1)).takeWhile isDigitC).length
              + (1 + sgn2.length + es.length) := by
          rw [hsubT]
          simp [List.length_append]
          omega
        simp only [hred]
        refine ⟨by omega, hendle, ?_, ?_, Or.inr ?_⟩
        · intro x hx
          rw [hsubT] at hx
          simp only [List.head?_cons, Option.mem_def, Option.some.injEq] at hx
          subst hx
          decide
        · rw [htf, hTlen]
          split_ifs <;> omega
        · rw [htf]
          omega
      · have hred : scanFracExp json p = (skipDigits json (p + 1), true) := by
          simp only [scanFracExp]
          rw [if_pos hdot, if_neg hq1, if_neg he]
        have hqle : skipDigits json (p + 1) ≤ json.length :=
          skipDigits_le_length (by omega)
        have hsubT : sub json p (skipDigits json (p + 1))
            = '.' :: ((json.drop (p + 1)).takeWhile isDigitC) := by
          rw [sub_split json (by omega : p ≤ p + 1) h1q, sub_single hplt, hdot,
            sub_skipDigits]
          simp
        have htf : tailFrExp (sub json p (skipDigits json (p + 1)))
            = 1 + ((json.drop (p + 1)).takeWhile isDigitC).length := by
          rw [hsubT]
          have h := tailFrExp_dot_digits ((json.drop (p + 1)).takeWhile isDigitC) []
            (takeWhile_all_self _ _) (by intro x hx; cases hx)
          simpa [tailExpLen] using h
        simp only [hred]
        refine ⟨by omega, hqle, ?_, ?_, Or.inr (by rw [htf]; omega)⟩
        · intro x hx
          rw [hsubT] at hx
          simp only [List.head?_cons, Option.mem_def, Option.some.injEq] at hx
          subst hx
          decide
        · rw [htf, hsubT]
          simp only [List.length_cons]
          omega
  · by_cases he : (getC json p = 'e' || getC json p = 'E') = true
    · have he2 : getC json p = 'e' ∨ getC json p = 'E' := by
        simpa only [Bool.or_eq_true, decide_eq_true_eq] using he
      have hplt : p < json.length := by
        rcases he2 with h1 | h1 <;> exact getC_lt_of_ne h1 (by decide)
      obtain ⟨sgn2, es, hshape, hesall, hend, hendle, hflag, hsubq⟩ :=
        scanExpPart_spec json p false hplt
      have hred : scanFracExp json p = scanExpPart json p false := by
        simp only [scanFracExp]
        rw [if_neg hdot, if_pos he]
      have hecd : isDigitC (getC json p) = false := by
        rcases he2 with h1 | h1 <;> rw [h1] <;> decide
      have htf : tailFrExp (sub json p (scanExpPart json p false).1)
          = if es = [] then 0 else 1 + sgn2.length + es.length := by
        rw [hsubq, tailFrExp_nodot _ (by
            intro x hx
            simp only [List.head?_cons, Option.mem_def, Option.some.injEq] at hx
            subst hx
            rcases he2 with h1 | h1 <;> rw [h1] <;> decide),
          tailExpLen_e _ _ _ he2 hshape hesall]
      have hTlen : (sub json p (scanExpPart json p false).1).length
          = 1 + sgn2.length + es.length := by
        rw [hsubq]
        simp [List.length_append]
        omega
      simp only [hred]
      refine ⟨by omega, hendle, ?_, ?_, ?_⟩
      · intro x hx
        rw [hsubq] at hx
        simp only [List.head?_cons, Option.mem_def, Option.some.injEq] at hx
        subst hx
        exact hecd
      · rw [htf, hTlen]
        split_ifs <;> omega
      · by_cases hes0 : es = []
        · refine Or.inl ⟨?_, by rw [htf, if_pos hes0]⟩
          rw [hflag, hes0]
          simp
        · refine Or.inr ?_
          rw [htf, if_neg hes0]
          omega
    · have hred : scanFracExp json p = (p, false) := by
        simp only [scanFracExp]
        rw [if_neg hdot, if_neg he]
      simp only [hred, sub_self]
      simp [tailFrExp, tailExpLen]
      exact hp

theorem take_append_len (xs ys : List Char) (k : Nat) :
    (xs ++ ys).take (xs.length + k) = xs ++ ys.take k := by
  induction xs with
  | nil => simp
  | cons a l ih =>
    simp only [List.cons_append, List.length_cons]
    rw [show l.length + 1 + k = (l.length + k) + 1 by omega, List.take_succ_cons, ih]

/-- C9: every numeral JSON::parseNumber accepts yields either an `integer`
value holding exactly the signed 64-bit reading of the numeral text it
consumed (the bytes from the entry position to the returned position), when
that text is an optional minus sign followed by decimal digits whose value
fits the signed 64-bit range, or a `number` value carrying exactly the
consumed numeral text, which then does not read as an in-range signed
64-bit integer. -/
theorem parseNumber_int64_classification (lim : Limits) (json : List Char)
    (pos : Nat) (v : JSONValue) (rpos : Nat)
    (h : JSON.parseNumber lim json pos = .ok (v, rpos)) :
    (∃ n : Int, v = .integer n ∧ int64OfText (sub json pos rpos) = some n) ∨
    (v = .number (sub json pos rpos) ∧ int64OfText (sub json pos rpos) = none) := by
  simp only [JSON.parseNumber] at h
  by_cases hd1 : isDigitC (getC json (if getC json pos = '-' then pos + 1 else pos)) = true
  swap
  · rw [if_pos hd1] at h
    exact Except.noConfusion h
  rw [if_neg (not_not_intro hd1)] at h
  set pos1 := if getC json pos = '-' then pos + 1 else pos with hpos1
  have hplt1 : pos1 < json.length := getC_lt_of_digit hd1
  obtain ⟨sgn, hsgnshape, hsgnsub, hsgnlen⟩ :
      ∃ sgn : List Char, (sgn = [] ∨ sgn = ['-']) ∧ sub json pos pos1 = sgn
        ∧ pos1 = pos + sgn.length := by
    by_cases hm : getC json pos = '-'
    · have hplt0 : pos < json.length := getC_lt_of_ne hm (by decide)
      refine ⟨['-'], Or.inr rfl, ?_, ?_⟩
      · rw [hpos1, if_pos hm, sub_single hplt0, hm]
      · rw [hpos1, if_pos hm]; simp
    · refine ⟨[], Or.inl rfl, ?_, ?_⟩
      · rw [hpos1, if_neg hm, sub_self]
      · rw [hpos1, if_neg hm]; simp
  set pos2 := if getC json pos1 = '0' then pos1 + 1 else skipDigits json (pos1 + 1) with hpos2
  obtain ⟨ds, hds, hall, hdssub, hdslen, hp2le⟩ :
      ∃ ds : List Char, ds ≠ [] ∧ ds.all isDigitC = true ∧ sub json pos1 pos2 = ds
        ∧ pos2 = pos1 + ds.length ∧ pos2 ≤ json.length := by
    by_cases h0 : getC json pos1 = '0'
    · refine ⟨[getC json pos1], by simp, by simp [hd1], ?_, ?_, ?_⟩
      · rw [hpos2, if_pos h0]
        exact sub_single hplt1
      · rw [hpos2, if_pos h0]; simp
      · rw [hpos2, if_pos h0]; omega
    · have hge := skipDigits_ge json (pos1 + 1)
      have hle : skipDigits json (pos1 + 1) ≤ json.length :=
        skipDigits_le_length (by omega)
      refine ⟨getC json pos1 :: (json.drop (pos1 + 1)).takeWhile isDigitC, by simp, ?_, ?_, ?_, ?_⟩
      · simp [List.all_cons, hd1, takeWhile_all_self]
      · rw [hpos2, if_neg h0,
          sub_split json (by omega : pos1 ≤ pos1 + 1) hge,
          sub_single hplt1, sub_skipDigits]
        simp
      · rw [hpos2, if_neg h0, skipDigits_eq]
        simp only [List.length_cons]
        omega
      · rw [hpos2, if_neg h0]
        exact hle
  obtain ⟨hfge, hfle, hheadT, htfle, hdisj⟩ := scanFracExp_spec json pos2 hp2le
  set fe := scanFracExp json pos2 with hfe
  set T := sub json pos2 fe.1 with hT
  by_cases hnl : fe.1 - pos > lim.numeral_length
  · rw [if_pos hnl] at h
    exact Except.noConfusion h
  rw [if_neg hnl] at h
  have hnum : sub json pos fe.1 = sgn ++ ds ++ T := by
    rw [sub_split json (by omega : pos ≤ pos2) hfge, ← hT,
      sub_split json (by omega : pos ≤ pos1) (by omega : pos1 ≤ pos2), hsgnsub, hdssub]
  have hTlen : T.length = fe.1 - pos2 := by
    rw [hT]
    exact sub_length hfle hfge
  split at h
  · rename_i nl heq
    rw [Except.ok.injEq, Prod.mk.injEq] at h
    obtain ⟨hv, hrpos⟩ := h
    by_cases hflag : fe.2 = true
    · rw [if_pos hflag] at heq
      exact Option.noConfusion heq
    rw [if_neg hflag] at heq
    rw [hnum, stollWithLen_decomp sgn ds T hsgnshape hds hall hheadT] at heq
    by_cases hrange : -(2 ^ 63 : Int) ≤ (if sgn = ['-'] then -(decDigitsVal ds : Int)
          else (decDigitsVal ds : Int))
        ∧ (if sgn = ['-'] then -(decDigitsVal ds : Int)
          else (decDigitsVal ds : Int)) ≤ 2 ^ 63 - 1
    swap
    · rw [if_neg hrange] at heq
      exact Option.noConfusion heq
    rw [if_pos hrange] at heq
    rw [Option.some.injEq] at heq
    have hval : nl.1 = (if sgn = ['-'] then -(decDigitsVal ds : Int)
        else (decDigitsVal ds : Int)) := by
      rw [← heq]
    have hlen : nl.2 = sgn.length + ds.length := by
      rw [← heq]
    have hr2 : rpos = pos + (sgn.length + ds.length) := by omega
    have htk : (sub json pos fe.1).take (sgn.length + ds.length)
        = sub json pos (pos + (sgn.length + ds.length)) := sub_take (by omega)
    have htake : (sub json pos fe.1).take (sgn.length + ds.length) = sgn ++ ds := by
      rw [hnum, ← List.length_append, List.take_left]
    have hsub3 : sub json pos rpos = sgn ++ ds := by
      rw [hr2, ← htk, htake]
    left
    refine ⟨(if sgn = ['-'] then -(decDigitsVal ds : Int)
        else (decDigitsVal ds : Int)), ?_, ?_⟩
    · rw [← hv, hval]
    · rw [hsub3, int64OfText_pure sgn ds hsgnshape hds hall, if_pos hrange]
  · rename_i heq
    have hstold : stoldConsumed (sub json pos fe.1)
        = sgn.length + ds.length + tailFrExp T := by
      rw [hnum, stoldConsumed_decomp sgn ds T hsgnshape hds hall hheadT]
    by_cases hnl2 : stoldConsumed (sub json pos fe.1) > lim.numeral_length
    · rw [if_pos hnl2] at h
      exact Except.noConfusion h
    rw [if_neg hnl2] at h
    rw [Except.ok.injEq, Prod.mk.injEq] at h
    obtain ⟨hv, hrpos⟩ := h
    have htk : (sub json pos fe.1).take (sgn.length + ds.length + tailFrExp T)
        = sub json pos (pos + (sgn.length + ds.length + tailFrExp T)) :=
      sub_take (by omega)
    have htake : (sub json pos fe.1).take (sgn.length + ds.length + tailFrExp T)
        = sgn ++ ds ++ T.take (tailFrExp T) := by
      rw [hnum, ← List.length_append, take_append_len]
    have hsub2 : sub json pos rpos
        = (sub json pos fe.1).take (stoldConsumed (sub json pos fe.1)) := by
      rw [← hrpos, hstold, ← htk]
    right
    refine ⟨?_, ?_⟩
    · rw [← hv, hsub2]
    · rw [hsub2, hstold, htake]
      rcases hdisj with ⟨hf0, htf0⟩ | h1
      · simp only [htf0, List.take_zero, List.append_nil]
        rw [hf0] at heq
        simp only [Bool.false_eq_true, if_false] at heq
        rw [hnum, stollWithLen_decomp sgn ds T hsgnshape hds hall hheadT] at heq
        by_cases hrange : -(2 ^ 63 : Int) ≤ (if sgn = ['-'] then -(decDigitsVal ds : Int)
              else (decDigitsVal ds : Int))
            ∧ (if sgn = ['-'] then -(decDigitsVal ds : Int)
              else (decDigitsVal ds : Int)) ≤ 2 ^ 63 - 1
        · rw [if_pos hrange] at heq
          exact Option.noConfusion heq
        · rw [int64OfText_pure sgn ds hsgnshape hds hall, if_neg hrange]
      · obtain ⟨y, ys, hTcons⟩ : ∃ y ys, T = y :: ys := by
          cases hTc : T with
          | nil =>
            rw [hTc] at h1
            simp [tailFrExp, tailExpLen] at h1
          | cons y ys => exact ⟨y, ys, rfl⟩
        have hy : isDigitC y = false := by
          apply hheadT
          rw [hTcons]
          rfl
        obtain ⟨k, hk⟩ : ∃ k, tailFrExp T = k + 1 := ⟨tailFrExp T - 1, by omega⟩
        exact int64OfText_extra_none sgn ds (T.take (tailFrExp T)) hsgnshape hds hall
          ⟨y, ys.take k, by rw [hk, hTcons, List.take_succ_cons], hy⟩

theorem parseNumber_int64_classification_witness :
    (∃ n : Int, JSONValue.integer 12345 = .integer n
        ∧ int64OfText (sub (chars ("12345")) 0 5) = some n) ∨
    (JSONValue.integer 12345 = .number (sub (chars ("12345")) 0 5)
        ∧ int64OfText (sub (chars ("12345")) 0 5) = none) :=
  parseNumber_int64_classification default_limits (chars ("12345")) 0
    (.integer 12345) 5 (by rfl)

end ncbi
